import Mathlib

/-!
Verification development for the Discadelta flat distributor
(`src/samples/chapter_01_sample.cpp` and `src/samples/chapter_02_sample.cpp`).

Modelling conventions:
* `float` arithmetic is idealised as exact rational arithmetic (`ℚ`); the
  per-child ULP tolerances of the spec correspond to exact equalities here.
* The parallel `std::vector<float>` fields of `DiscadeltaPreComputeMetrics`
  are modelled as a single list of per-child records (`DItem`); the record
  also keeps the fields (`er`, `maxD` during compression, `cap`, `sol`,
  `minD` during expansion) that the C++ next-pass metrics drop, because the
  corresponding pass never reads them.
* The mutable segment store (`std::vector<std::unique_ptr<DiscadeltaSegment>>`,
  reached through the non-owning `segments` pointers) is a list of records;
  a pointer write becomes an index-addressed functional update.  The C++
  pass never reads segment fields, so applying all writes of a pass after
  computing them is identical to the interleaved execution of the loop.
  Each modelled write carries a ghost `fixed` flag (ignored by the store
  update) recording which branch of the loop produced it.
* The recursive redistribution functions take a fuel argument; fuel
  `n + 1` (`n` = number of children) is shown to be sufficient.
-/

namespace Discadelta

/-- Mutable per-segment content (C++ `struct DiscadeltaSegment`). -/
structure DiscadeltaSegment where
  name : String
  base : ℚ
  expandDelta : ℚ
  distance : ℚ
  deriving DecidableEq

/-- Immutable per-segment declaration (C++ `struct DiscadeltaSegmentConfig`). -/
structure DiscadeltaSegmentConfig where
  name : String
  base : ℚ
  compressRatio : ℚ
  expandRatio : ℚ
  min : ℚ
  max : ℚ
  deriving DecidableEq

/-- C++ `std::clamp(v, lo, hi)`. -/
def stdClamp (v lo hi : ℚ) : ℚ := if v < lo then lo else if hi < v then hi else v

/-- `minVal = std::max(0.0f, rawMin)` (chapter 2, line 69). -/
def normMin (c : DiscadeltaSegmentConfig) : ℚ := max 0 c.min

/-- `maxVal = std::max(minVal, rawMax)` (chapter 2, line 70). -/
def normMax (c : DiscadeltaSegmentConfig) : ℚ := max (normMin c) c.max

/-- `baseVal = std::clamp(rawBase, minVal, maxVal)` (chapter 2, line 71). -/
def normBase (c : DiscadeltaSegmentConfig) : ℚ := stdClamp c.base (normMin c) (normMax c)

/-- `compressRatio = std::max(0.0f, rawCompressRatio)` (chapter 2, line 73). -/
def normCompressRatio (c : DiscadeltaSegmentConfig) : ℚ := max 0 c.compressRatio

/-- `expandRatio = std::max(0.0f, rawExpandRatio)` (chapter 2, line 74). -/
def normExpandRatio (c : DiscadeltaSegmentConfig) : ℚ := max 0 c.expandRatio

/-- `compressCapacity = baseVal * compressRatio` (chapter 2, line 77). -/
def compressCapacity (c : DiscadeltaSegmentConfig) : ℚ := normBase c * normCompressRatio c

/-- `compressSolidify = std::max(0.0f, baseVal - compressCapacity)` (chapter 2, line 78). -/
def compressSolidify (c : DiscadeltaSegmentConfig) : ℚ :=
  max 0 (normBase c - compressCapacity c)

/-- One child of the pre-compute metrics: the slice of the parallel vectors
`compressCapacities`, `compressSolidifies`, `baseDistances`, `expandRatios`,
`minDistances`, `maxDistances` at one index, together with the index into
the segment store (the non-owning `segments[i]` pointer). -/
structure DItem where
  idx : ℕ
  cap : ℚ
  sol : ℚ
  base : ℚ
  er : ℚ
  minD : ℚ
  maxD : ℚ
  deriving DecidableEq

/-- The metrics entry produced for config `c` at position `i` of the
ingestion loop of `MakeDiscadeltaContext` (chapter 2, lines 65-102). -/
def mkItem (i : ℕ) (c : DiscadeltaSegmentConfig) : DItem :=
  ⟨i, compressCapacity c, compressSolidify c, normBase c, normExpandRatio c,
    normMin c, normMax c⟩

/-- The metrics entries for a config list, indexed from `i`. -/
def mkItems : ℕ → List DiscadeltaSegmentConfig → List DItem
  | _, [] => []
  | i, c :: cs => mkItem i c :: mkItems (i + 1) cs

/-- The owned segment created for config `c` (chapter 2, lines 93-97). -/
def mkSeg (c : DiscadeltaSegmentConfig) : DiscadeltaSegment :=
  ⟨c.name, normBase c, 0, normBase c⟩

/-- Sum of `f` over a list (the C++ `accumulate… +=` folds). -/
def sumBy {α : Type _} (l : List α) (f : α → ℚ) : ℚ := (l.map f).sum

/-- C++ `struct DiscadeltaPreComputeMetrics` (per-child vectors fused into
`items`). -/
structure DMetrics where
  inputDistance : ℚ
  items : List DItem
  accBase : ℚ
  accSol : ℚ
  accER : ℚ
  deriving DecidableEq

/-- C++ `MakeDiscadeltaContext` (chapter 2, lines 55-107): validates the
input distance, normalises every config, builds the metrics and the owned
segments, and selects compression (`true`) or expansion (`false`). -/
def MakeDiscadeltaContext (configs : List DiscadeltaSegmentConfig) (inputDistance : ℚ) :
    List DiscadeltaSegment × DMetrics × Bool :=
  let vI := max 0 inputDistance
  let items := mkItems 0 configs
  let aB := sumBy items (fun it => it.base)
  (configs.map mkSeg,
   ⟨vI, items, aB, sumBy items (fun it => it.sol), sumBy items (fun it => it.er)⟩,
   decide (vI < aB))

/-- Functional update of one list position (a write through the non-owning
segment pointer). Out-of-range writes do not occur in runs that matter;
they are modelled as no-ops. -/
def modifyAt {α : Type _} : List α → ℕ → (α → α) → List α
  | [], _, _ => []
  | a :: as, 0, f => f a :: as
  | a :: as, n + 1, f => a :: modifyAt as n f

/-- A segment write of the compression loop (`seg->base = seg->distance =
clampedDist`, chapter 2, line 153). `fixed` is ghost data: it records
whether the write came from the clamped/inflexible branch. -/
structure CWrite where
  idx : ℕ
  val : ℚ
  fixed : Bool
  deriving DecidableEq

/-- The store effect of one compression write. -/
def cUpd (v : ℚ) (s : DiscadeltaSegment) : DiscadeltaSegment :=
  { s with base := v, distance := v }

/-- Apply a list of index-addressed writes to a store. -/
def applyWrites {ω α : Type _} (pos : ω → ℕ) (upd : ω → α → α)
    (ws : List ω) (segs : List α) : List α :=
  ws.foldl (fun ss w => modifyAt ss (pos w) (upd w)) segs

/-- Apply the writes of one compression pass to the segment store. -/
def applyCWrites (segs : List DiscadeltaSegment) (ws : List CWrite) :
    List DiscadeltaSegment :=
  applyWrites (fun w => w.idx) (fun w => cUpd w.val) ws segs

/-- `compressBaseDistance` (chapter 2, lines 130-131): the proportional
candidate with the three safety guards, plus the solidify floor. -/
def cProposed (D B S : ℚ) (it : DItem) : ℚ :=
  (if D - S ≤ 0 ∨ B - S ≤ 0 ∨ it.cap ≤ 0 then 0 else (D - S) / (B - S) * it.cap) + it.sol

/-- `clampedDist = std::max(compressBaseDistance, min)` (chapter 2, line 135). -/
def cFinal (D B S : ℚ) (it : DItem) : ℚ := max (cProposed D B S it) it.minD

/-- Result of one sweep of the compression loop: the segment writes, the
amount subtracted from the next pass input by fixed children, the next-pass
accumulators and flexible children, and the two safeguard counters. -/
structure CPassOut where
  writes : List CWrite
  dec : ℚ
  nBase : ℚ
  nSol : ℚ
  nItems : List DItem
  value : ℕ
  limit : ℕ

/-- Loop body outcome for a fixed (clamped or inflexible) child. -/
def consFixedC (it : DItem) (d : ℚ) (o : CPassOut) : CPassOut :=
  ⟨⟨it.idx, d, true⟩ :: o.writes, o.dec + d, o.nBase, o.nSol, o.nItems, o.value, o.limit + 1⟩

/-- Loop body outcome for a still-flexible child. -/
def consFlexC (it : DItem) (d : ℚ) (o : CPassOut) : CPassOut :=
  ⟨⟨it.idx, d, false⟩ :: o.writes, o.dec, o.nBase + it.base, o.nSol + it.sol,
    it :: o.nItems, o.value + 1, o.limit + 1⟩

/-- The `for` loop of `RedistributeDiscadeltaCompressDistance` (chapter 2,
lines 119-158), carrying the cascade budgets `cascadeCompressDistance`,
`cascadeBaseDistance`, `cascadeCompressSolidify`. -/
def compressPassGo : ℚ → ℚ → ℚ → List DItem → CPassOut
  | _, _, _, [] => ⟨[], 0, 0, 0, [], 0, 0⟩
  | D, B, S, it :: rest =>
    let o := compressPassGo (D - cFinal D B S it) (B - it.base) (S - it.sol) rest
    if cProposed D B S it ≠ cFinal D B S it ∨ it.cap ≤ 0 then consFixedC it (cFinal D B S it) o
    else consFlexC it (cFinal D B S it) o

/-- C++ `RedistributeDiscadeltaCompressDistance` (chapter 2, lines 109-164),
with explicit fuel for the recursion.  `nextLineMetrics.inputDistance`
starts at the incoming input distance and is reduced by each fixed child's
clamped distance; its expand-ratio accumulator stays at its default `0`. -/
def RedistributeDiscadeltaCompressDistance :
    ℕ → DMetrics → List DiscadeltaSegment → List DiscadeltaSegment
  | 0, _, segs => segs
  | fuel + 1, m, segs =>
    let o := compressPassGo m.inputDistance m.accBase m.accSol m.items
    let segs1 := applyCWrites segs o.writes
    if o.value < o.limit then
      RedistributeDiscadeltaCompressDistance fuel
        ⟨m.inputDistance - o.dec, o.nItems, o.nBase, o.nSol, 0⟩ segs1
    else segs1

/-- A segment write of the expansion loop (`seg->expandDelta = clampedDelta;
seg->distance = base + clampedDelta`, chapter 2, lines 198-199).
`fixed` is ghost data as in `CWrite`. -/
structure EWrite where
  idx : ℕ
  delta : ℚ
  dist : ℚ
  fixed : Bool
  deriving DecidableEq

/-- The store effect of one expansion write. -/
def eUpd (w : EWrite) (s : DiscadeltaSegment) : DiscadeltaSegment :=
  { s with expandDelta := w.delta, distance := w.dist }

/-- Apply the writes of one expansion pass to the segment store. -/
def applyEWrites (segs : List DiscadeltaSegment) (ws : List EWrite) :
    List DiscadeltaSegment :=
  applyWrites (fun w => w.idx) eUpd ws segs

/-- `expandDelta` (chapter 2, lines 179-180): proportional surplus share
with the two safety guards. -/
def eDelta (S R : ℚ) (it : DItem) : ℚ :=
  if R ≤ 0 ∨ it.er ≤ 0 then 0 else S / R * it.er

/-- `clampedDelta = std::min(expandDelta, maxDelta)` with
`maxDelta = std::max(0.0f, max - base)` (chapter 2, lines 183-184). -/
def eFinal (S R : ℚ) (it : DItem) : ℚ := min (eDelta S R it) (max 0 (it.maxD - it.base))

/-- Result of one sweep of the expansion loop. -/
structure EPassOut where
  writes : List EWrite
  dec : ℚ
  nBase : ℚ
  nER : ℚ
  nItems : List DItem
  value : ℕ
  limit : ℕ

/-- Loop body outcome for a fixed (clamped or zero-ratio) child. -/
def consFixedE (it : DItem) (cd : ℚ) (o : EPassOut) : EPassOut :=
  ⟨⟨it.idx, cd, it.base + cd, true⟩ :: o.writes, o.dec + cd, o.nBase, o.nER,
    o.nItems, o.value, o.limit + 1⟩

/-- Loop body outcome for a still-flexible child. -/
def consFlexE (it : DItem) (cd : ℚ) (o : EPassOut) : EPassOut :=
  ⟨⟨it.idx, cd, it.base + cd, false⟩ :: o.writes, o.dec, o.nBase + it.base,
    o.nER + it.er, it :: o.nItems, o.value + 1, o.limit + 1⟩

/-- The `for` loop of `RedistributeDiscadeltaExpandDistance` (chapter 2,
lines 174-203), carrying `cascadeExpandDelta` and `cascadeExpandRatio`. -/
def expandPassGo : ℚ → ℚ → List DItem → EPassOut
  | _, _, [] => ⟨[], 0, 0, 0, [], 0, 0⟩
  | S, R, it :: rest =>
    let o := expandPassGo (S - eFinal S R it) (R - it.er) rest
    if eFinal S R it ≠ eDelta S R it ∨ it.er ≤ 0 then consFixedE it (eFinal S R it) o
    else consFlexE it (eFinal S R it) o

/-- C++ `RedistributeDiscadeltaExpandDistance` (chapter 2, lines 166-211),
with explicit fuel.  The next input distance is the current surplus minus
the fixed children's deltas, plus the flexible bases added back at line
206; the next solidify accumulator stays at its default `0`. -/
def RedistributeDiscadeltaExpandDistance :
    ℕ → DMetrics → List DiscadeltaSegment → List DiscadeltaSegment
  | 0, _, segs => segs
  | fuel + 1, m, segs =>
    let S := max (m.inputDistance - m.accBase) 0
    if S ≤ 0 then segs
    else
      let o := expandPassGo S m.accER m.items
      let segs1 := applyEWrites segs o.writes
      if o.value < o.limit then
        RedistributeDiscadeltaExpandDistance fuel
          ⟨S - o.dec + o.nBase, o.nItems, o.nBase, 0, o.nER⟩ segs1
      else segs1

/-- The driver of chapter 2's `main` (lines 222-231): build the context and
run the pass selected by `processingCompression`.  Fuel `n + 1` is enough
for every run (see the pass-count theorems). -/
def SolveDiscadelta (configs : List DiscadeltaSegmentConfig) (T : ℚ) :
    List DiscadeltaSegment :=
  let r := MakeDiscadeltaContext configs T
  if r.2.2 then
    RedistributeDiscadeltaCompressDistance (r.2.1.items.length + 1) r.2.1 r.1
  else
    RedistributeDiscadeltaExpandDistance (r.2.1.items.length + 1) r.2.1 r.1

/-- Number of invocations of the compression function (each invocation is
one pass over its flexible set). -/
def compressPassCount : ℕ → DMetrics → ℕ
  | 0, _ => 0
  | fuel + 1, m =>
    let o := compressPassGo m.inputDistance m.accBase m.accSol m.items
    if o.value < o.limit then
      1 + compressPassCount fuel ⟨m.inputDistance - o.dec, o.nItems, o.nBase, o.nSol, 0⟩
    else 1

/-- Number of invocations of the expansion function. -/
def expandPassCount : ℕ → DMetrics → ℕ
  | 0, _ => 0
  | fuel + 1, m =>
    let S := max (m.inputDistance - m.accBase) 0
    if S ≤ 0 then 1
    else
      let o := expandPassGo S m.accER m.items
      if o.value < o.limit then
        1 + expandPassCount fuel ⟨S - o.dec + o.nBase, o.nItems, o.nBase, 0, o.nER⟩
      else 1

/-- Pass count of the whole driver run. -/
def SolvePassCount (configs : List DiscadeltaSegmentConfig) (T : ℚ) : ℕ :=
  let r := MakeDiscadeltaContext configs T
  if r.2.2 then compressPassCount (r.2.1.items.length + 1) r.2.1
  else expandPassCount (r.2.1.items.length + 1) r.2.1

/-- Default segment used by total index reads. -/
def dfltSeg : DiscadeltaSegment := ⟨"", 0, 0, 0⟩

/-- Total read of a stored distance. -/
def distAt (segs : List DiscadeltaSegment) (j : ℕ) : ℚ := (segs.getD j dfltSeg).distance

/-- Sum of all stored distances (the total printed by the samples). -/
def distSum (segs : List DiscadeltaSegment) : ℚ := sumBy segs (fun s => s.distance)

/-- Effective compression floor of a child: the min clamp or, if larger,
the solidify part that the pass cannot remove. -/
def effMin (it : DItem) : ℚ := max it.minD it.sol

/-- Effective expansion headroom of a child: `0` for a zero expand ratio,
else the distance from base to the max clamp. -/
def effDelta (it : DItem) : ℚ := if it.er ≤ 0 then 0 else max 0 (it.maxD - it.base)

/-- `effMin` at ingestion, as a function of the raw config. -/
def effMinCfg (c : DiscadeltaSegmentConfig) : ℚ := max (normMin c) (compressSolidify c)

/-- The largest distance expansion can give a child, as a function of the
raw config. -/
def effMaxCfg (c : DiscadeltaSegmentConfig) : ℚ :=
  if normExpandRatio c ≤ 0 then normBase c else normMax c

end Discadelta

namespace Discadelta

namespace Ch01

/-- Chapter 1 per-segment declaration (no name, no clamps). -/
structure Config where
  base : ℚ
  compressRatio : ℚ
  expandRatio : ℚ
  deriving DecidableEq

/-- `base = std::max(rawBase, 0.0f)` (chapter 1, line 62). -/
def vBase (c : Config) : ℚ := max c.base 0

/-- `compressRatio = std::max(rawCompressRatio, 0.0f)` (chapter 1, line 63). -/
def vCR (c : Config) : ℚ := max c.compressRatio 0

/-- `expandRatio = std::max(rawExpandRatio, 0.0f)` (chapter 1, line 64). -/
def vER (c : Config) : ℚ := max c.expandRatio 0

/-- `compressCapacity = base * compressRatio` (chapter 1, line 67). -/
def cap (c : Config) : ℚ := vBase c * vCR c

/-- `compressSolidify = base - compressCapacity` (chapter 1, line 68).
Note: unlike chapter 2, there is no clamp to `0` here. -/
def sol (c : Config) : ℚ := vBase c - cap c

/-- The single compression sweep of chapter 1 (lines 97-112), returning
each segment's `compressBaseDistance`. -/
def compressGo : ℚ → ℚ → ℚ → List Config → List ℚ
  | _, _, _, [] => []
  | D, B, S, c :: rest =>
    let d := (if D - S ≤ 0 ∨ B - S ≤ 0 ∨ cap c ≤ 0 then 0 else (D - S) / (B - S) * cap c)
      + sol c
    d :: compressGo (D - d) (B - vBase c) (S - sol c) rest

/-- The single expansion sweep of chapter 1 (lines 120-130), returning each
segment's `expandDelta`. -/
def expandGo : ℚ → ℚ → List Config → List ℚ
  | _, _, [] => []
  | S, R, c :: rest =>
    let d := if R ≤ 0 ∨ vER c ≤ 0 then 0 else S / R * vER c
    d :: expandGo (S - d) (R - vER c) rest

/-- Chapter 1 `main` after validation: final distances for target `T`
(compression when `T < Σ base`, else expansion added to the bases). -/
def run (cfgs : List Config) (T : ℚ) : List ℚ :=
  let B := sumBy cfgs vBase
  if T < B then compressGo T B (sumBy cfgs sol) cfgs
  else
    let S := max (T - B) 0
    if 0 < S then (cfgs.zip (expandGo S (sumBy cfgs vER) cfgs)).map (fun p => vBase p.1 + p.2)
    else cfgs.map vBase

end Ch01

end Discadelta

namespace Discadelta

/-- Default config used by total index reads. -/
def dfltCfg : DiscadeltaSegmentConfig := ⟨"", 0, 0, 0, 0, 0⟩

/-- The four configs of chapter 2's `main` (lines 215-219). -/
def scenarioC : List DiscadeltaSegmentConfig :=
  [⟨"1", 200, 7/10, 1/10, 0, 100⟩,
   ⟨"2", 200, 1, 1, 300, 800⟩,
   ⟨"3", 150, 0, 2, 0, 200⟩,
   ⟨"4", 350, 3/10, 1/2, 50, 300⟩]

/-- The four configs of chapter 1's `main` (lines 21-26). -/
def scenarioA : List Ch01.Config :=
  [⟨200, 7/10, 1/10⟩, ⟨300, 1, 1⟩, ⟨150, 1, 2⟩, ⟨250, 3/10, 1/2⟩]

/-- A single child that cannot compress (flex 0): used to refute claim C1. -/
def cxOne : List DiscadeltaSegmentConfig := [⟨"a", 100, 0, 0, 0, 100⟩]

/-- A pair with one `flex_compress = 3` child: used to refute claims C2 and C6. -/
def cxTwo : List DiscadeltaSegmentConfig :=
  [⟨"a", 100, 3, 0, 0, 100⟩, ⟨"b", 100, 0, 0, 0, 100⟩]

/-- A single child pinned at its min: used to refute the pass bound of claim C5. -/
def cxMinPin : List DiscadeltaSegmentConfig := [⟨"a", 100, 1, 0, 200, 200⟩]

/-- Default metrics item used by total index reads. -/
def dfltItem : DItem := ⟨0, 0, 0, 0, 0, 0, 0⟩

/-- The shape every metrics item has after chapter-2 ingestion of a config
whose `compressRatio` is at most `1`: nonnegative solidify and capacity
that partition the base, and clamps around the base. -/
def ItemOK (it : DItem) : Prop :=
  0 ≤ it.sol ∧ 0 ≤ it.cap ∧ it.sol + it.cap = it.base ∧ 0 ≤ it.minD ∧
    it.minD ≤ it.base ∧ it.base ≤ it.maxD ∧ 0 ≤ it.er

/-! ### Basic lemmas about sums, `modifyAt` and `applyWrites` -/

@[simp]
theorem sumBy_nil {α : Type _} (f : α → ℚ) : sumBy ([] : List α) f = 0 := rfl

@[simp]
theorem sumBy_cons {α : Type _} (a : α) (l : List α) (f : α → ℚ) :
    sumBy (a :: l) f = f a + sumBy l f := by
  simp [sumBy]

theorem sumBy_nonneg {α : Type _} {l : List α} {f : α → ℚ} (h : ∀ x ∈ l, 0 ≤ f x) :
    0 ≤ sumBy l f := by
  induction l with
  | nil => simp
  | cons a t ih =>
    have := h a (by simp)
    have := ih (fun x hx => h x (by simp [hx]))
    simp only [sumBy_cons]
    linarith

theorem sumBy_le_sumBy {α : Type _} {l : List α} {f g : α → ℚ}
    (h : ∀ x ∈ l, f x ≤ g x) : sumBy l f ≤ sumBy l g := by
  induction l with
  | nil => simp
  | cons a t ih =>
    have := h a (by simp)
    have := ih (fun x hx => h x (by simp [hx]))
    simp only [sumBy_cons]
    linarith

theorem sumBy_congr {α : Type _} {l : List α} {f g : α → ℚ}
    (h : ∀ x ∈ l, f x = g x) : sumBy l f = sumBy l g := by
  induction l with
  | nil => simp
  | cons a t ih =>
    have h0 := h a (by simp)
    have := ih (fun x hx => h x (by simp [hx]))
    simp only [sumBy_cons]
    rw [h0, this]

theorem sumBy_eq_zero {α : Type _} {l : List α} {f : α → ℚ}
    (hnn : ∀ x ∈ l, 0 ≤ f x) (hz : sumBy l f ≤ 0) : ∀ x ∈ l, f x = 0 := by
  induction l with
  | nil => simp
  | cons a t ih =>
    have ha : 0 ≤ f a := hnn a (by simp)
    have ht : 0 ≤ sumBy t f := sumBy_nonneg (fun x hx => hnn x (by simp [hx]))
    simp only [sumBy_cons] at hz
    intro x hx
    rcases List.mem_cons.mp hx with h | h
    · subst h; linarith
    · exact ih (fun y hy => hnn y (by simp [hy])) (by linarith) x h

theorem sumBy_forall₂ {α β : Type _} {l₁ : List α} {l₂ : List β} {f : α → ℚ} {g : β → ℚ}
    (h : List.Forall₂ (fun a b => f a = g b) l₁ l₂) : sumBy l₁ f = sumBy l₂ g := by
  induction h with
  | nil => rfl
  | cons hab _ ih => simp only [sumBy_cons]; rw [hab, ih]

theorem forall₂_mem_left {α β : Type _} {R : α → β → Prop} {l₁ : List α} {l₂ : List β}
    (h : List.Forall₂ R l₁ l₂) : ∀ a ∈ l₁, ∃ b ∈ l₂, R a b := by
  induction h with
  | nil => simp
  | cons hab _ ih =>
    intro a ha
    rcases List.mem_cons.mp ha with h | h
    · subst h; exact ⟨_, by simp, hab⟩
    · rcases ih a h with ⟨b, hb, hr⟩
      exact ⟨b, by simp [hb], hr⟩

@[simp]
theorem modifyAt_nil {α : Type _} (k : ℕ) (f : α → α) : modifyAt ([] : List α) k f = [] := rfl

@[simp]
theorem modifyAt_cons_zero {α : Type _} (a : α) (l : List α) (f : α → α) :
    modifyAt (a :: l) 0 f = f a :: l := rfl

@[simp]
theorem modifyAt_cons_succ {α : Type _} (a : α) (l : List α) (k : ℕ) (f : α → α) :
    modifyAt (a :: l) (k + 1) f = a :: modifyAt l k f := rfl

@[simp]
theorem length_modifyAt {α : Type _} (l : List α) (k : ℕ) (f : α → α) :
    (modifyAt l k f).length = l.length := by
  induction l generalizing k with
  | nil => rfl
  | cons a t ih => cases k with
    | zero => rfl
    | succ k => simp [ih]

theorem modifyAt_of_length_le {α : Type _} {l : List α} {k : ℕ} (f : α → α)
    (h : l.length ≤ k) : modifyAt l k f = l := by
  induction l generalizing k with
  | nil => rfl
  | cons a t ih => cases k with
    | zero => simp at h
    | succ k =>
      simp only [List.length_cons, Nat.succ_le_succ_iff] at h
      simp [ih h]

theorem getD_modifyAt_self {α : Type _} {l : List α} {k : ℕ} (f : α → α) (d : α)
    (h : k < l.length) : (modifyAt l k f).getD k d = f (l.getD k d) := by
  induction l generalizing k with
  | nil => simp at h
  | cons hd t ih => cases k with
    | zero => simp
    | succ k =>
      simp only [List.length_cons, Nat.succ_lt_succ_iff] at h
      simp only [modifyAt_cons_succ, List.getD_cons_succ]
      exact ih h

theorem getD_modifyAt_ne {α : Type _} {l : List α} {j k : ℕ} (f : α → α) (d : α)
    (h : j ≠ k) : (modifyAt l k f).getD j d = l.getD j d := by
  induction l generalizing j k with
  | nil => rfl
  | cons hd t ih => cases k with
    | zero => cases j with
      | zero => exact absurd rfl h
      | succ j => simp
    | succ k => cases j with
      | zero => simp
      | succ j =>
        simp only [modifyAt_cons_succ, List.getD_cons_succ]
        exact ih (fun hh => h (by simp [hh]))

theorem sumBy_modifyAt {α : Type _} {l : List α} {k : ℕ} (f : α → α) (g : α → ℚ) (d : α)
    (h : k < l.length) :
    sumBy (modifyAt l k f) g = sumBy l g - g (l.getD k d) + g (f (l.getD k d)) := by
  induction l generalizing k with
  | nil => simp at h
  | cons hd t ih => cases k with
    | zero => simp only [modifyAt_cons_zero, sumBy_cons, List.getD_cons_zero]; ring
    | succ k =>
      simp only [List.length_cons, Nat.succ_lt_succ_iff] at h
      simp only [modifyAt_cons_succ, sumBy_cons, List.getD_cons_succ, ih h]
      ring

theorem forall_mem_modifyAt {α : Type _} {l : List α} {k : ℕ} {f : α → α} {P : α → Prop}
    (hl : ∀ x ∈ l, P x) (hf : ∀ x, P x → P (f x)) : ∀ x ∈ modifyAt l k f, P x := by
  induction l generalizing k with
  | nil => simp
  | cons hd t ih => cases k with
    | zero =>
      simp only [modifyAt_cons_zero]
      intro x hx
      rcases List.mem_cons.mp hx with hh | hh
      · rw [hh]; exact hf hd (hl hd (by simp))
      · exact hl x (by simp [hh])
    | succ k =>
      simp only [modifyAt_cons_succ]
      intro x hx
      rcases List.mem_cons.mp hx with hh | hh
      · rw [hh]; exact hl hd (by simp)
      · exact ih (fun y hy => hl y (by simp [hy])) x hh

theorem map_modifyAt {α β : Type _} {l : List α} {k : ℕ} {f : α → α} (g : α → β)
    (hfg : ∀ x, g (f x) = g x) : (modifyAt l k f).map g = l.map g := by
  induction l generalizing k with
  | nil => rfl
  | cons a t ih => cases k with
    | zero => simp [hfg]
    | succ k => simp [ih]

/-- Predicate-per-position preservation through `modifyAt`. -/
theorem getD_pred_modifyAt {α : Type _} {l : List α} {k : ℕ} {f : α → α} {d : α}
    {P : ℕ → α → Prop} (hl : ∀ j, P j (l.getD j d)) (hf : ∀ s, P k (f s)) :
    ∀ j, P j ((modifyAt l k f).getD j d) := by
  intro j
  by_cases hj : j = k
  · subst hj
    by_cases hlen : j < l.length
    · rw [getD_modifyAt_self f d hlen]; exact hf _
    · rw [modifyAt_of_length_le f (Nat.le_of_not_lt hlen)]; exact hl j
  · rw [getD_modifyAt_ne f d hj]; exact hl j

@[simp]
theorem applyWrites_nil {ω α : Type _} (pos : ω → ℕ) (upd : ω → α → α) (segs : List α) :
    applyWrites pos upd [] segs = segs := rfl

@[simp]
theorem applyWrites_cons {ω α : Type _} (pos : ω → ℕ) (upd : ω → α → α) (w : ω)
    (ws : List ω) (segs : List α) :
    applyWrites pos upd (w :: ws) segs =
      applyWrites pos upd ws (modifyAt segs (pos w) (upd w)) := rfl

@[simp]
theorem length_applyWrites {ω α : Type _} (pos : ω → ℕ) (upd : ω → α → α)
    (ws : List ω) (segs : List α) :
    (applyWrites pos upd ws segs).length = segs.length := by
  induction ws generalizing segs with
  | nil => rfl
  | cons w ws ih => simp [ih]

theorem getD_applyWrites_not_mem {ω α : Type _} {pos : ω → ℕ} {upd : ω → α → α}
    {ws : List ω} {segs : List α} {j : ℕ} (d : α) (h : ∀ w ∈ ws, pos w ≠ j) :
    (applyWrites pos upd ws segs).getD j d = segs.getD j d := by
  induction ws generalizing segs with
  | nil => rfl
  | cons w ws ih =>
    rw [applyWrites_cons, ih (fun w hw => h w (by simp [hw])),
      getD_modifyAt_ne _ d (fun hh => h w (by simp) hh.symm)]

theorem getD_applyWrites_mem {ω α : Type _} {pos : ω → ℕ} {upd : ω → α → α}
    {ws : List ω} {segs : List α} {w : ω} (d : α)
    (hN : (ws.map pos).Nodup) (hw : w ∈ ws) (hlen : pos w < segs.length) :
    (applyWrites pos upd ws segs).getD (pos w) d = upd w (segs.getD (pos w) d) := by
  induction ws generalizing segs with
  | nil => simp at hw
  | cons w0 ws ih =>
    simp only [List.map_cons, List.nodup_cons] at hN
    rcases List.mem_cons.mp hw with h | h
    · subst h
      have hnm : ∀ x ∈ ws, pos x ≠ pos w := by
        intro x hx hp
        exact hN.1 (by rw [← hp]; exact List.mem_map_of_mem pos hx)
      rw [applyWrites_cons, getD_applyWrites_not_mem d hnm,
        getD_modifyAt_self _ d hlen]
    · have hne : pos w ≠ pos w0 := by
        intro hh
        exact hN.1 (by rw [← hh]; exact List.mem_map_of_mem pos h)
      rw [applyWrites_cons, ih hN.2 h (by simpa using hlen),
        getD_modifyAt_ne _ d hne]

theorem sumBy_applyWrites {ω α : Type _} {pos : ω → ℕ} {upd : ω → α → α}
    {ws : List ω} {segs : List α} (g : α → ℚ) (gv : ω → ℚ) (d : α)
    (hval : ∀ w s, g (upd w s) = gv w)
    (hN : (ws.map pos).Nodup) (hlen : ∀ w ∈ ws, pos w < segs.length) :
    sumBy (applyWrites pos upd ws segs) g =
      sumBy segs g - sumBy ws (fun w => g (segs.getD (pos w) d)) + sumBy ws gv := by
  induction ws generalizing segs with
  | nil => simp
  | cons w0 ws ih =>
    simp only [List.map_cons, List.nodup_cons] at hN
    have h0 : pos w0 < segs.length := hlen w0 (by simp)
    rw [applyWrites_cons, ih hN.2 (fun w hw => by simpa using hlen w (by simp [hw]))]
    rw [sumBy_modifyAt (upd w0) g d h0, hval w0]
    have hrest : sumBy ws (fun w => g ((modifyAt segs (pos w0) (upd w0)).getD (pos w) d)) =
        sumBy ws (fun w => g (segs.getD (pos w) d)) := by
      apply sumBy_congr
      intro w hw
      have hne : pos w ≠ pos w0 := by
        intro hh
        exact hN.1 (by rw [← hh]; exact List.mem_map_of_mem pos hw)
      rw [getD_modifyAt_ne _ d hne]
    rw [hrest]
    simp only [sumBy_cons]
    ring

theorem forall_mem_applyWrites {ω α : Type _} {pos : ω → ℕ} {upd : ω → α → α}
    {ws : List ω} {segs : List α} {P : α → Prop}
    (hl : ∀ x ∈ segs, P x) (hf : ∀ w x, P x → P (upd w x)) :
    ∀ x ∈ applyWrites pos upd ws segs, P x := by
  induction ws generalizing segs with
  | nil => exact hl
  | cons w ws ih =>
    rw [applyWrites_cons]
    exact ih (forall_mem_modifyAt hl (hf w))

theorem map_applyWrites {ω α β : Type _} {pos : ω → ℕ} {upd : ω → α → α}
    {ws : List ω} {segs : List α} (g : α → β)
    (hfg : ∀ w x, g (upd w x) = g x) :
    (applyWrites pos upd ws segs).map g = segs.map g := by
  induction ws generalizing segs with
  | nil => rfl
  | cons w ws ih =>
    rw [applyWrites_cons, ih, map_modifyAt g (hfg w)]

theorem getD_pred_applyWrites {ω α : Type _} {pos : ω → ℕ} {upd : ω → α → α}
    {ws : List ω} {segs : List α} {d : α} {P : ℕ → α → Prop}
    (hl : ∀ j, P j (segs.getD j d)) (hf : ∀ w ∈ ws, ∀ s, P (pos w) (upd w s)) :
    ∀ j, P j ((applyWrites pos upd ws segs).getD j d) := by
  induction ws generalizing segs with
  | nil => exact hl
  | cons w ws ih =>
    rw [applyWrites_cons]
    exact ih (getD_pred_modifyAt hl (hf w (by simp)))
      (fun w hw => hf w (by simp [hw]))

end Discadelta

namespace Discadelta

/-! ### Normalization and ingestion lemmas -/

theorem le_stdClamp (v lo hi : ℚ) (h : lo ≤ hi) : lo ≤ stdClamp v lo hi := by
  unfold stdClamp
  split_ifs with h1 h2
  · exact le_refl lo
  · exact h
  · exact le_of_not_lt h1

theorem stdClamp_le (v lo hi : ℚ) (h : lo ≤ hi) : stdClamp v lo hi ≤ hi := by
  unfold stdClamp
  split_ifs with h1 h2
  · exact h
  · exact le_refl hi
  · exact le_of_not_lt h2

theorem stdClamp_eq_min_max (v lo hi : ℚ) (h : lo ≤ hi) :
    stdClamp v lo hi = min (max v lo) hi := by
  unfold stdClamp
  split_ifs with h1 h2
  · rw [max_eq_right h1.le, min_eq_left h]
  · rw [max_eq_left (le_of_not_lt h1), min_eq_right h2.le]
  · rw [max_eq_left (le_of_not_lt h1), min_eq_left (le_of_not_lt h2)]

theorem normMin_nonneg (c : DiscadeltaSegmentConfig) : 0 ≤ normMin c := le_max_left 0 c.min

theorem normMin_le_normMax (c : DiscadeltaSegmentConfig) : normMin c ≤ normMax c :=
  le_max_left (normMin c) c.max

theorem normMin_le_normBase (c : DiscadeltaSegmentConfig) : normMin c ≤ normBase c :=
  le_stdClamp c.base (normMin c) (normMax c) (normMin_le_normMax c)

theorem normBase_le_normMax (c : DiscadeltaSegmentConfig) : normBase c ≤ normMax c :=
  stdClamp_le c.base (normMin c) (normMax c) (normMin_le_normMax c)

theorem normBase_nonneg (c : DiscadeltaSegmentConfig) : 0 ≤ normBase c :=
  le_trans (normMin_nonneg c) (normMin_le_normBase c)

theorem compressSolidify_nonneg (c : DiscadeltaSegmentConfig) : 0 ≤ compressSolidify c :=
  le_max_left 0 _

theorem compressCapacity_nonneg (c : DiscadeltaSegmentConfig) : 0 ≤ compressCapacity c :=
  mul_nonneg (normBase_nonneg c) (le_max_left 0 c.compressRatio)

/-- With `compressRatio ≤ 1` the capacity is at most the base, so the max
in `compressSolidify` is inactive and solidify and capacity partition the
base. -/
theorem mkItem_ok (i : ℕ) (c : DiscadeltaSegmentConfig) (hr : c.compressRatio ≤ 1) :
    ItemOK (mkItem i c) := by
  have hb : 0 ≤ normBase c := normBase_nonneg c
  have hr1 : normCompressRatio c ≤ 1 := max_le (by norm_num) hr
  have hcap : compressCapacity c ≤ normBase c := by
    have := mul_le_of_le_one_right hb hr1
    simpa [compressCapacity] using this
  have hsol : compressSolidify c = normBase c - compressCapacity c := by
    unfold compressSolidify
    rw [max_eq_right (by linarith)]
  refine ⟨?_, compressCapacity_nonneg c, ?_, normMin_nonneg c, normMin_le_normBase c,
    normBase_le_normMax c, le_max_left 0 c.expandRatio⟩
  · show 0 ≤ compressSolidify c
    rw [hsol]; linarith
  · show compressSolidify c + compressCapacity c = normBase c
    rw [hsol]; ring

theorem mkItems_length (i : ℕ) (cs : List DiscadeltaSegmentConfig) :
    (mkItems i cs).length = cs.length := by
  induction cs generalizing i with
  | nil => rfl
  | cons c cs ih => simp [mkItems, ih]

theorem getD_mkItems (cs : List DiscadeltaSegmentConfig) (i k : ℕ) (h : k < cs.length) :
    (mkItems i cs).getD k dfltItem = mkItem (i + k) (cs.getD k dfltCfg) := by
  induction cs generalizing i k with
  | nil => simp at h
  | cons c cs ih => cases k with
    | zero => simp [mkItems]
    | succ k =>
      simp only [List.length_cons, Nat.succ_lt_succ_iff] at h
      simp only [mkItems, List.getD_cons_succ]
      rw [ih (i + 1) k h]
      congr 1
      omega

theorem mem_mkItems (cs : List DiscadeltaSegmentConfig) (i : ℕ) :
    ∀ it ∈ mkItems i cs, ∃ c ∈ cs, ∃ j : ℕ, it = mkItem j c := by
  induction cs generalizing i with
  | nil => simp [mkItems]
  | cons c cs ih =>
    intro it hit
    rcases List.mem_cons.mp hit with hh | hh
    · exact ⟨c, by simp, i, hh⟩
    · rcases ih (i + 1) it hh with ⟨c0, hc0, j, hj⟩
      exact ⟨c0, by simp [hc0], j, hj⟩

/-- Claim C7: ingestion normalizes `min ← max(0, min)`, `max ← max(min, max)`,
`base ← clamp(base, min, max)`, flex values `← max(0, ·)`, and afterwards
`min ≤ base ≤ max` always holds. -/
theorem c7_normalization (c : DiscadeltaSegmentConfig) :
    normMin c = max 0 c.min ∧
    normMax c = max (normMin c) c.max ∧
    normBase c = min (max c.base (normMin c)) (normMax c) ∧
    normCompressRatio c = max 0 c.compressRatio ∧
    normExpandRatio c = max 0 c.expandRatio ∧
    normMin c ≤ normBase c ∧ normBase c ≤ normMax c := by
  refine ⟨rfl, rfl, ?_, rfl, rfl, normMin_le_normBase c, normBase_le_normMax c⟩
  rw [normBase, stdClamp_eq_min_max c.base (normMin c) (normMax c) (normMin_le_normMax c)]

/-- Claim C8 (amended part): at chapter-2 ingestion, every metrics entry
satisfies `compress_capacity = base × flex_compress` and
`compress_solidify = max(0, base − compress_capacity)` with the normalized
base and ratio. -/
theorem c8_derived_metrics (configs : List DiscadeltaSegmentConfig) (T : ℚ) (i : ℕ)
    (h : i < configs.length) :
    ((MakeDiscadeltaContext configs T).2.1.items.getD i dfltItem).cap
      = normBase (configs.getD i dfltCfg) * normCompressRatio (configs.getD i dfltCfg) ∧
    ((MakeDiscadeltaContext configs T).2.1.items.getD i dfltItem).sol
      = max 0 (normBase (configs.getD i dfltCfg)
          - ((MakeDiscadeltaContext configs T).2.1.items.getD i dfltItem).cap) := by
  have hitems : (MakeDiscadeltaContext configs T).2.1.items = mkItems 0 configs := rfl
  rw [hitems, getD_mkItems configs 0 i h]
  exact ⟨rfl, rfl⟩

/-- Witness for `c8_derived_metrics` at a concrete config. -/
theorem c8_witness :
    0 < ([⟨"a", 5, 2, 0, 0, 3⟩] : List DiscadeltaSegmentConfig).length ∧
    (((MakeDiscadeltaContext [⟨"a", 5, 2, 0, 0, 3⟩] 7).2.1.items.getD 0 dfltItem).cap
      = normBase (([⟨"a", 5, 2, 0, 0, 3⟩] : List DiscadeltaSegmentConfig).getD 0 dfltCfg)
        * normCompressRatio (([⟨"a", 5, 2, 0, 0, 3⟩] : List DiscadeltaSegmentConfig).getD 0 dfltCfg) ∧
    ((MakeDiscadeltaContext [⟨"a", 5, 2, 0, 0, 3⟩] 7).2.1.items.getD 0 dfltItem).sol
      = max 0 (normBase (([⟨"a", 5, 2, 0, 0, 3⟩] : List DiscadeltaSegmentConfig).getD 0 dfltCfg)
          - ((MakeDiscadeltaContext [⟨"a", 5, 2, 0, 0, 3⟩] 7).2.1.items.getD 0 dfltItem).cap)) :=
  ⟨by decide, c8_derived_metrics [⟨"a", 5, 2, 0, 0, 3⟩] 7 0 (by decide)⟩

/-- Claim C8 counterexample: chapter 1 computes `compressSolidify = base −
compressCapacity` without the clamp to `0`, so for `flex_compress > 1` it
is negative rather than `max(0, …)`. -/
theorem c8_counterexample :
    Ch01.sol ⟨1, 2, 0⟩ < 0 ∧
    Ch01.sol ⟨1, 2, 0⟩ ≠ max 0 (Ch01.vBase ⟨1, 2, 0⟩ - Ch01.cap ⟨1, 2, 0⟩) := by
  constructor
  · norm_num [Ch01.sol, Ch01.cap, Ch01.vBase, Ch01.vCR, max_def]
  · norm_num [Ch01.sol, Ch01.cap, Ch01.vBase, Ch01.vCR, max_def]

/-- Claim C10: a negative target is clamped to `0` at context construction,
so context, mode selection and the whole solve agree with target `0`. -/
theorem c10_negative_target (configs : List DiscadeltaSegmentConfig) (T : ℚ) (h : T < 0) :
    MakeDiscadeltaContext configs T = MakeDiscadeltaContext configs 0 ∧
    SolveDiscadelta configs T = SolveDiscadelta configs 0 ∧
    SolvePassCount configs T = SolvePassCount configs 0 := by
  have hmax : max 0 T = max 0 (0 : ℚ) := by
    rw [max_eq_left h.le, max_self]
  have hm : MakeDiscadeltaContext configs T = MakeDiscadeltaContext configs 0 := by
    unfold MakeDiscadeltaContext
    rw [hmax]
  refine ⟨hm, ?_, ?_⟩
  · unfold SolveDiscadelta
    rw [hm]
  · unfold SolvePassCount
    rw [hm]

/-- Witness for `c10_negative_target` at a concrete input. -/
theorem c10_witness :
    ((-5 : ℚ) < 0) ∧
    SolveDiscadelta [⟨"a", 1, 1, 1, 0, 2⟩] (-5) = SolveDiscadelta [⟨"a", 1, 1, 1, 0, 2⟩] 0 :=
  ⟨by decide, (c10_negative_target [⟨"a", 1, 1, 1, 0, 2⟩] (-5) (by decide)).2.1⟩

end Discadelta

namespace Discadelta

/-! ### Concrete scenario computations and counterexamples -/

/-- Claim C3: for chapter 2's four configs at target 800, the solver fixes
child 2 at its normalized min 300, fixes the inflexible child 3 (capacity
0) at 150, distributes the remaining 350 between children 1 and 4, and the
four distances sum to exactly 800. -/
theorem c3_scenario :
    ((SolveDiscadelta scenarioC 800).map fun s => s.distance)
        = [625/8, 300, 150, 2175/8] ∧
    distAt (SolveDiscadelta scenarioC 800) 1 = normMin (scenarioC.getD 1 dfltCfg) ∧
    distAt (SolveDiscadelta scenarioC 800) 1 = 300 ∧
    compressCapacity (scenarioC.getD 2 dfltCfg) = 0 ∧
    distAt (SolveDiscadelta scenarioC 800) 2 = 150 ∧
    distAt (SolveDiscadelta scenarioC 800) 0 + distAt (SolveDiscadelta scenarioC 800) 3
        = 350 ∧
    distSum (SolveDiscadelta scenarioC 800) = 800 := by
  norm_num [scenarioC, SolveDiscadelta, MakeDiscadeltaContext, mkItems, mkItem, mkSeg,
    sumBy, normMin, normMax, normBase, stdClamp, normCompressRatio, normExpandRatio,
    compressCapacity, compressSolidify, RedistributeDiscadeltaCompressDistance,
    compressPassGo, cProposed, cFinal, consFixedC, consFlexC, applyCWrites,
    RedistributeDiscadeltaExpandDistance, expandPassGo, eDelta, eFinal, consFixedE,
    consFlexE, applyEWrites, applyWrites, modifyAt, cUpd, eUpd, distSum, distAt,
    dfltSeg, dfltCfg, max_def, min_def]

/-- Claim C4 (amended): the chapter-1 run at target 800 gives exactly
23800/133, 33900/133, 16950/133, 31750/133, i.e. 178.947, 254.887,
127.444, 238.722 to three decimals, summing to exactly 800. -/
theorem c4_chapter1_distances :
    Ch01.run scenarioA 800 = [23800/133, 33900/133, 16950/133, 31750/133] ∧
    sumBy (Ch01.run scenarioA 800) id = 800 ∧
    (178947 : ℚ)/1000 - 1/2000 < 23800/133 ∧ (23800 : ℚ)/133 < 178947/1000 + 1/2000 ∧
    (254887 : ℚ)/1000 - 1/2000 < 33900/133 ∧ (33900 : ℚ)/133 < 254887/1000 + 1/2000 ∧
    (127444 : ℚ)/1000 - 1/2000 < 16950/133 ∧ (16950 : ℚ)/133 < 127444/1000 + 1/2000 ∧
    (238722 : ℚ)/1000 - 1/2000 < 31750/133 ∧ (31750 : ℚ)/133 < 238722/1000 + 1/2000 := by
  norm_num [scenarioA, Ch01.run, Ch01.compressGo, Ch01.expandGo, Ch01.vBase, Ch01.vCR,
    Ch01.vER, Ch01.cap, Ch01.sol, sumBy, max_def, min_def]

/-- Claim C4 counterexample: the first distance of the chapter-1 run is
178.947…, more than 12 below the 191.304 stated by the spec, so it does
not round to 191.304 at three decimals. -/
theorem c4_counterexample :
    (Ch01.run scenarioA 800).getD 0 0 ≠ (191304 : ℚ)/1000 ∧
    (191304 : ℚ)/1000 - (Ch01.run scenarioA 800).getD 0 0 > 12 := by
  norm_num [scenarioA, Ch01.run, Ch01.compressGo, Ch01.expandGo, Ch01.vBase, Ch01.vCR,
    Ch01.vER, Ch01.cap, Ch01.sol, sumBy, max_def, min_def]

/-- Claim C1 counterexample: one child with base 100, flex 0, min 0, max
100, target 50: `Σ min ≤ 50 ≤ Σ max` holds but the distances sum to 100. -/
theorem c1_counterexample :
    sumBy (mkItems 0 cxOne) (fun it => it.minD) ≤ 50 ∧
    (50 : ℚ) ≤ sumBy (mkItems 0 cxOne) (fun it => it.maxD) ∧
    distSum (SolveDiscadelta cxOne 50) = 100 ∧
    distSum (SolveDiscadelta cxOne 50) ≠ 50 := by
  norm_num [cxOne, SolveDiscadelta, MakeDiscadeltaContext, mkItems, mkItem, mkSeg,
    sumBy, normMin, normMax, normBase, stdClamp, normCompressRatio, normExpandRatio,
    compressCapacity, compressSolidify, RedistributeDiscadeltaCompressDistance,
    compressPassGo, cProposed, cFinal, consFixedC, consFlexC, applyCWrites,
    RedistributeDiscadeltaExpandDistance, expandPassGo, eDelta, eFinal, consFixedE,
    consFlexE, applyEWrites, applyWrites, modifyAt, cUpd, eUpd, distSum, distAt,
    dfltSeg, dfltCfg, max_def, min_def]

/-- Claim C2 counterexample: with `flex_compress = 3` on the first child,
target 150 ≥ 0 yields a first distance of 150, above its max clamp 100. -/
theorem c2_counterexample :
    (0 : ℚ) ≤ 150 ∧
    normMax (cxTwo.getD 0 dfltCfg) = 100 ∧
    distAt (SolveDiscadelta cxTwo 150) 0 = 150 ∧
    ¬ distAt (SolveDiscadelta cxTwo 150) 0 ≤ normMax (cxTwo.getD 0 dfltCfg) := by
  norm_num [cxTwo, SolveDiscadelta, MakeDiscadeltaContext, mkItems, mkItem, mkSeg,
    sumBy, normMin, normMax, normBase, stdClamp, normCompressRatio, normExpandRatio,
    compressCapacity, compressSolidify, RedistributeDiscadeltaCompressDistance,
    compressPassGo, cProposed, cFinal, consFixedC, consFlexC, applyCWrites,
    RedistributeDiscadeltaExpandDistance, expandPassGo, eDelta, eFinal, consFixedE,
    consFlexE, applyEWrites, applyWrites, modifyAt, cUpd, eUpd, distSum, distAt,
    dfltSeg, dfltCfg, max_def, min_def]

/-- Claim C6 counterexample: same pair, target 150 ≤ Σ base = 200, yet the
compression pass grows the first child from base 100 to 150. -/
theorem c6_counterexample :
    (150 : ℚ) ≤ sumBy (mkItems 0 cxTwo) (fun it => it.base) ∧
    normBase (cxTwo.getD 0 dfltCfg) = 100 ∧
    distAt (SolveDiscadelta cxTwo 150) 0 = 150 ∧
    ¬ distAt (SolveDiscadelta cxTwo 150) 0 ≤ normBase (cxTwo.getD 0 dfltCfg) := by
  norm_num [cxTwo, SolveDiscadelta, MakeDiscadeltaContext, mkItems, mkItem, mkSeg,
    sumBy, normMin, normMax, normBase, stdClamp, normCompressRatio, normExpandRatio,
    compressCapacity, compressSolidify, RedistributeDiscadeltaCompressDistance,
    compressPassGo, cProposed, cFinal, consFixedC, consFlexC, applyCWrites,
    RedistributeDiscadeltaExpandDistance, expandPassGo, eDelta, eFinal, consFixedE,
    consFlexE, applyEWrites, applyWrites, modifyAt, cUpd, eUpd, distSum, distAt,
    dfltSeg, dfltCfg, max_def, min_def]

/-- Claim C5 counterexample: one child that pins at its min needs two
invocations of the pass (the second, over an empty flexible set, fixes
nothing), exceeding the claimed bound of one pass per child. -/
theorem c5_counterexample :
    SolvePassCount cxMinPin 100 = 2 ∧ cxMinPin.length = 1 ∧
    ¬ SolvePassCount cxMinPin 100 ≤ cxMinPin.length := by
  norm_num [cxMinPin, SolvePassCount, MakeDiscadeltaContext, mkItems, mkItem, mkSeg,
    sumBy, normMin, normMax, normBase, stdClamp, normCompressRatio, normExpandRatio,
    compressCapacity, compressSolidify, compressPassCount, expandPassCount,
    compressPassGo, cProposed, cFinal, consFixedC, consFlexC,
    expandPassGo, eDelta, eFinal, consFixedE, consFlexE, mkItems_length,
    max_def, min_def]

end Discadelta

namespace Discadelta

/-! ### Claim C9: compression only rewrites base and distance, together -/

/-- Compression writes keep `base = distance` and never touch
`expandDelta` or `name`; this invariant survives every pass. -/
theorem compress_frame_aux (fuel : ℕ) (m : DMetrics) (segs : List DiscadeltaSegment)
    (h : ∀ s ∈ segs, s.base = s.distance ∧ s.expandDelta = 0) :
    (∀ s ∈ RedistributeDiscadeltaCompressDistance fuel m segs,
        s.base = s.distance ∧ s.expandDelta = 0) ∧
    (RedistributeDiscadeltaCompressDistance fuel m segs).map (fun s => s.name)
      = segs.map (fun s => s.name) := by
  induction fuel generalizing m segs with
  | zero => exact ⟨h, rfl⟩
  | succ fuel ih =>
    have h1 : ∀ s ∈ applyCWrites segs
        (compressPassGo m.inputDistance m.accBase m.accSol m.items).writes,
        s.base = s.distance ∧ s.expandDelta = 0 := by
      unfold applyCWrites
      exact forall_mem_applyWrites h (fun w x hx => ⟨rfl, hx.2⟩)
    have h2 : (applyCWrites segs
        (compressPassGo m.inputDistance m.accBase m.accSol m.items).writes).map
          (fun s => s.name) = segs.map (fun s => s.name) := by
      unfold applyCWrites
      exact map_applyWrites _ (fun w x => rfl)
    simp only [RedistributeDiscadeltaCompressDistance]
    by_cases hc : (compressPassGo m.inputDistance m.accBase m.accSol m.items).value
        < (compressPassGo m.inputDistance m.accBase m.accSol m.items).limit
    · simp only [if_pos hc]
      have hrec := ih ⟨m.inputDistance
          - (compressPassGo m.inputDistance m.accBase m.accSol m.items).dec,
        (compressPassGo m.inputDistance m.accBase m.accSol m.items).nItems,
        (compressPassGo m.inputDistance m.accBase m.accSol m.items).nBase,
        (compressPassGo m.inputDistance m.accBase m.accSol m.items).nSol, 0⟩ _ h1
      exact ⟨hrec.1, hrec.2.trans h2⟩
    · simp only [if_neg hc]
      exact ⟨h1, h2⟩

/-- Claim C9: after a compression solve, every segment's content has
`base = distance` (the pass overwrites the stored base with the compressed
value), `expandDelta` still `0` from initialisation, and the name field is
untouched: compression writes no other content field. -/
theorem c9_compress_frame (configs : List DiscadeltaSegmentConfig) (T : ℚ) (fuel : ℕ) :
    (∀ s ∈ RedistributeDiscadeltaCompressDistance fuel
        (MakeDiscadeltaContext configs T).2.1 (MakeDiscadeltaContext configs T).1,
      s.base = s.distance ∧ s.expandDelta = 0) ∧
    (RedistributeDiscadeltaCompressDistance fuel (MakeDiscadeltaContext configs T).2.1
        (MakeDiscadeltaContext configs T).1).map (fun s => s.name)
      = configs.map (fun c => c.name) := by
  have hinit : ∀ s ∈ (MakeDiscadeltaContext configs T).1,
      s.base = s.distance ∧ s.expandDelta = 0 := by
    intro s hs
    have hfst : (MakeDiscadeltaContext configs T).1 = configs.map mkSeg := rfl
    rw [hfst] at hs
    rcases List.mem_map.mp hs with ⟨c, hc, rfl⟩
    exact ⟨rfl, rfl⟩
  have h := compress_frame_aux fuel (MakeDiscadeltaContext configs T).2.1
    (MakeDiscadeltaContext configs T).1 hinit
  refine ⟨h.1, h.2.trans ?_⟩
  have hfst : (MakeDiscadeltaContext configs T).1 = configs.map mkSeg := rfl
  rw [hfst, List.map_map]
  rfl

/-- Witness for `c9_compress_frame` at a concrete run. -/
theorem c9_witness :
    (⟨"a", 3, 0, 3⟩ : DiscadeltaSegment) ∈ RedistributeDiscadeltaCompressDistance 2
        (MakeDiscadeltaContext [⟨"a", 5, 1, 0, 0, 10⟩] 3).2.1
        (MakeDiscadeltaContext [⟨"a", 5, 1, 0, 0, 10⟩] 3).1 ∧
    ((⟨"a", 3, 0, 3⟩ : DiscadeltaSegment).base
        = (⟨"a", 3, 0, 3⟩ : DiscadeltaSegment).distance ∧
      (⟨"a", 3, 0, 3⟩ : DiscadeltaSegment).expandDelta = 0) := by
  have hm : (⟨"a", 3, 0, 3⟩ : DiscadeltaSegment) ∈ RedistributeDiscadeltaCompressDistance 2
      (MakeDiscadeltaContext [⟨"a", 5, 1, 0, 0, 10⟩] 3).2.1
      (MakeDiscadeltaContext [⟨"a", 5, 1, 0, 0, 10⟩] 3).1 := by
    norm_num [MakeDiscadeltaContext, mkItems, mkItem, mkSeg, sumBy, normMin, normMax,
      normBase, stdClamp, normCompressRatio, normExpandRatio, compressCapacity,
      compressSolidify, RedistributeDiscadeltaCompressDistance, compressPassGo,
      cProposed, cFinal, consFixedC, consFlexC, applyCWrites, applyWrites, modifyAt,
      cUpd, max_def, min_def]
  exact ⟨hm, (c9_compress_frame [⟨"a", 5, 1, 0, 0, 10⟩] 3 2).1 _ hm⟩

end Discadelta

namespace Discadelta

/-! ### Per-item facts about the compression loop body -/

theorem compressPassGo_nil (D B S : ℚ) :
    compressPassGo D B S [] = ⟨[], 0, 0, 0, [], 0, 0⟩ := rfl

theorem compressPassGo_cons (D B S : ℚ) (it : DItem) (rest : List DItem) :
    compressPassGo D B S (it :: rest) =
      if cProposed D B S it ≠ cFinal D B S it ∨ it.cap ≤ 0 then
        consFixedC it (cFinal D B S it)
          (compressPassGo (D - cFinal D B S it) (B - it.base) (S - it.sol) rest)
      else
        consFlexC it (cFinal D B S it)
          (compressPassGo (D - cFinal D B S it) (B - it.base) (S - it.sol) rest) := rfl

theorem cProposed_ge_sol (D B S : ℚ) (it : DItem) : it.sol ≤ cProposed D B S it := by
  unfold cProposed
  split_ifs with h
  · simp
  · push_neg at h
    obtain ⟨h1, h2, h3⟩ := h
    have hpos : 0 < (D - S) / (B - S) * it.cap :=
      mul_pos (div_pos (by linarith) (by linarith)) (by linarith)
    linarith

theorem cFinal_ge_sol (D B S : ℚ) (it : DItem) : it.sol ≤ cFinal D B S it :=
  le_trans (cProposed_ge_sol D B S it) (le_max_left _ _)

theorem cFinal_ge_min (D B S : ℚ) (it : DItem) : it.minD ≤ cFinal D B S it :=
  le_max_right _ _

theorem cProposed_le_base (D B S : ℚ) (it : DItem) (hOK : ItemOK it) (hDB : D ≤ B) :
    cProposed D B S it ≤ it.base := by
  obtain ⟨hs, hc, hsc, h4, h5, h6, h7⟩ := hOK
  unfold cProposed
  split_ifs with h
  · linarith
  · push_neg at h
    obtain ⟨h1, h2, h3⟩ := h
    have hq : (D - S) / (B - S) ≤ 1 := (div_le_one (by linarith)).mpr (by linarith)
    have hm : (D - S) / (B - S) * it.cap ≤ 1 * it.cap :=
      mul_le_mul_of_nonneg_right hq (by linarith)
    linarith

theorem cFinal_le_base (D B S : ℚ) (it : DItem) (hOK : ItemOK it) (hDB : D ≤ B) :
    cFinal D B S it ≤ it.base :=
  max_le (cProposed_le_base D B S it hOK hDB) hOK.2.2.2.2.1

/-- In every branch of the loop body, the assigned distance is at least
`base + D − B`, which keeps the running budgets satisfying `D ≤ B`. -/
theorem cFinal_ge_step (D B S : ℚ) (it : DItem) (hOK : ItemOK it)
    (hcapBS : it.cap ≤ B - S) (hDB : D ≤ B) :
    it.base + D - B ≤ cFinal D B S it := by
  obtain ⟨hs, hc, hsc, h4, h5, h6, h7⟩ := hOK
  have hfin : cProposed D B S it ≤ cFinal D B S it := le_max_left _ _
  suffices h : it.base + D - B ≤ cProposed D B S it by linarith
  unfold cProposed
  split_ifs with h
  · rcases h with h1 | h2 | h3
    · linarith
    · linarith
    · linarith
  · push_neg at h
    obtain ⟨h1, h2, h3⟩ := h
    have hq1 : (D - S) / (B - S) ≤ 1 := (div_le_one (by linarith)).mpr (by linarith)
    have hqm : (D - S) / (B - S) * (B - S) = D - S := div_mul_cancel₀ _ (by linarith)
    have h9 : it.cap * (1 - (D - S) / (B - S)) ≤ (B - S) * (1 - (D - S) / (B - S)) :=
      mul_le_mul_of_nonneg_right hcapBS (by linarith)
    have h10 : (B - S) * (1 - (D - S) / (B - S)) = B - D := by
      rw [mul_sub, mul_one, mul_comm, hqm]
      ring
    rw [h10] at h9
    nlinarith [h9]

/-- A child taken through the fixed branch is assigned exactly its
effective minimum `max(min, solidify)`. -/
theorem cFinal_fixed_eq (D B S : ℚ) (it : DItem) (hOK : ItemOK it)
    (hfx : cProposed D B S it ≠ cFinal D B S it ∨ it.cap ≤ 0) :
    cFinal D B S it = effMin it := by
  obtain ⟨hs, hc, hsc, h4, h5, h6, h7⟩ := hOK
  rcases hfx with hne | hcap
  · have hlt : cProposed D B S it < it.minD := by
      by_contra hge
      push_neg at hge
      apply hne
      rw [cFinal, max_eq_left hge]
    have hsol : it.sol ≤ cProposed D B S it := cProposed_ge_sol D B S it
    rw [cFinal, max_eq_right hlt.le, effMin, max_eq_left (by linarith)]
  · have hc0 : it.cap = 0 := le_antisymm hcap hc
    have hsb : it.sol = it.base := by linarith
    have hp : cProposed D B S it = it.sol := by
      unfold cProposed
      rw [if_pos (Or.inr (Or.inr hcap))]
      ring
    rw [cFinal, hp, hsb, max_eq_left h5, effMin, hsb, max_eq_right h5]

end Discadelta

namespace Discadelta

/-! ### Structural facts about one compression pass -/

theorem cpass_limit (D B S : ℚ) (items : List DItem) :
    (compressPassGo D B S items).limit = items.length := by
  induction items generalizing D B S with
  | nil => rfl
  | cons it rest ih =>
    rw [compressPassGo_cons]
    by_cases hfx : cProposed D B S it ≠ cFinal D B S it ∨ it.cap ≤ 0
    · rw [if_pos hfx]; simp [consFixedC, ih]
    · rw [if_neg hfx]; simp [consFlexC, ih]

theorem cpass_value (D B S : ℚ) (items : List DItem) :
    (compressPassGo D B S items).value = (compressPassGo D B S items).nItems.length := by
  induction items generalizing D B S with
  | nil => rfl
  | cons it rest ih =>
    rw [compressPassGo_cons]
    by_cases hfx : cProposed D B S it ≠ cFinal D B S it ∨ it.cap ≤ 0
    · rw [if_pos hfx]; simpa [consFixedC] using ih _ _ _
    · rw [if_neg hfx]; simpa [consFlexC] using ih _ _ _

theorem cpass_sublist (D B S : ℚ) (items : List DItem) :
    List.Sublist (compressPassGo D B S items).nItems items := by
  induction items generalizing D B S with
  | nil => exact List.Sublist.refl _
  | cons it rest ih =>
    rw [compressPassGo_cons]
    by_cases hfx : cProposed D B S it ≠ cFinal D B S it ∨ it.cap ≤ 0
    · rw [if_pos hfx]
      exact List.Sublist.cons it (ih _ _ _)
    · rw [if_neg hfx]
      exact List.Sublist.cons₂ it (ih _ _ _)

theorem cpass_value_le_limit (D B S : ℚ) (items : List DItem) :
    (compressPassGo D B S items).value ≤ (compressPassGo D B S items).limit := by
  rw [cpass_value, cpass_limit]
  exact (cpass_sublist D B S items).length_le

theorem cpass_nBase (D B S : ℚ) (items : List DItem) :
    (compressPassGo D B S items).nBase
      = sumBy (compressPassGo D B S items).nItems (fun it => it.base) := by
  induction items generalizing D B S with
  | nil => simp [compressPassGo_nil]
  | cons it rest ih =>
    rw [compressPassGo_cons]
    by_cases hfx : cProposed D B S it ≠ cFinal D B S it ∨ it.cap ≤ 0
    · rw [if_pos hfx]; simpa [consFixedC] using ih _ _ _
    · rw [if_neg hfx]; simp [consFlexC, ih _ _ _]; ring

theorem cpass_nSol (D B S : ℚ) (items : List DItem) :
    (compressPassGo D B S items).nSol
      = sumBy (compressPassGo D B S items).nItems (fun it => it.sol) := by
  induction items generalizing D B S with
  | nil => simp [compressPassGo_nil]
  | cons it rest ih =>
    rw [compressPassGo_cons]
    by_cases hfx : cProposed D B S it ≠ cFinal D B S it ∨ it.cap ≤ 0
    · rw [if_pos hfx]; simpa [consFixedC] using ih _ _ _
    · rw [if_neg hfx]; simp [consFlexC, ih _ _ _]; ring

/-- The total of a pass's writes splits into the fixed part (subtracted
from the next input) and the flexible part. -/
theorem cpass_writes_split (D B S : ℚ) (items : List DItem) :
    sumBy (compressPassGo D B S items).writes (fun w => w.val)
      = (compressPassGo D B S items).dec
        + sumBy ((compressPassGo D B S items).writes.filter fun w => !w.fixed)
            (fun w => w.val) := by
  induction items generalizing D B S with
  | nil => simp [compressPassGo_nil]
  | cons it rest ih =>
    rw [compressPassGo_cons]
    by_cases hfx : cProposed D B S it ≠ cFinal D B S it ∨ it.cap ≤ 0
    · rw [if_pos hfx]
      simp only [consFixedC, sumBy_cons, List.filter_cons]
      norm_num
      rw [ih]
      ring
    · rw [if_neg hfx]
      simp only [consFlexC, sumBy_cons, List.filter_cons]
      norm_num
      rw [ih]
      ring

theorem cpass_writes_idx (D B S : ℚ) (items : List DItem) :
    List.Forall₂ (fun (w : CWrite) (it : DItem) => w.idx = it.idx)
      (compressPassGo D B S items).writes items := by
  induction items generalizing D B S with
  | nil => exact List.Forall₂.nil
  | cons it rest ih =>
    rw [compressPassGo_cons]
    by_cases hfx : cProposed D B S it ≠ cFinal D B S it ∨ it.cap ≤ 0
    · rw [if_pos hfx]
      exact List.Forall₂.cons rfl (ih _ _ _)
    · rw [if_neg hfx]
      exact List.Forall₂.cons rfl (ih _ _ _)

/-- The flexible writes line up one-to-one with the next pass's items. -/
theorem cpass_flex_align (D B S : ℚ) (items : List DItem) :
    List.Forall₂ (fun (w : CWrite) (it : DItem) => w.idx = it.idx)
      ((compressPassGo D B S items).writes.filter fun w => !w.fixed)
      (compressPassGo D B S items).nItems := by
  induction items generalizing D B S with
  | nil => exact List.Forall₂.nil
  | cons it rest ih =>
    rw [compressPassGo_cons]
    by_cases hfx : cProposed D B S it ≠ cFinal D B S it ∨ it.cap ≤ 0
    · rw [if_pos hfx]
      simpa [consFixedC, List.filter_cons] using ih _ _ _
    · rw [if_neg hfx]
      simp only [consFlexC]
      rw [List.filter_cons_of_pos]
      · exact List.Forall₂.cons rfl (ih _ _ _)
      · rfl

end Discadelta

namespace Discadelta

/-! ### Numeric facts about one compression pass -/

theorem sumBy_base_eq (items : List DItem) (hOK : ∀ it ∈ items, ItemOK it) :
    sumBy items (fun it => it.base)
      = sumBy items (fun it => it.sol) + sumBy items (fun it => it.cap) := by
  induction items with
  | nil => simp
  | cons it rest ih =>
    have h := (hOK it (by simp)).2.2.1
    have ihh := ih (fun x hx => hOK x (by simp [hx]))
    simp only [sumBy_cons]
    linarith

theorem head_cap_split (it : DItem) (rest : List DItem) (B S : ℚ)
    (hOK : ∀ x ∈ it :: rest, ItemOK x)
    (hB : B = sumBy (it :: rest) (fun x => x.base))
    (hS : S = sumBy (it :: rest) (fun x => x.sol)) :
    B - S = it.cap + sumBy rest (fun x => x.cap) := by
  have h := sumBy_base_eq (it :: rest) hOK
  simp only [sumBy_cons] at h hB hS
  linarith

/-- The main per-pass accounting: every write stays between the child's
min clamp and its base, fixed writes are exactly the effective minimum,
the pass hands out at least `D` in total, the next input still fits below
the next base total, and the fixed total is the drop in effective-minimum
mass. -/
theorem cpass_numeric (D B S : ℚ) (items : List DItem)
    (hOK : ∀ it ∈ items, ItemOK it)
    (hB : B = sumBy items (fun it => it.base))
    (hS : S = sumBy items (fun it => it.sol))
    (hDB : D ≤ B) :
    List.Forall₂ (fun (w : CWrite) (it : DItem) =>
        w.idx = it.idx ∧ it.minD ≤ w.val ∧ it.sol ≤ w.val ∧ w.val ≤ it.base ∧
        (w.fixed = true → w.val = effMin it))
      (compressPassGo D B S items).writes items ∧
    D ≤ sumBy (compressPassGo D B S items).writes (fun w => w.val) ∧
    D - (compressPassGo D B S items).dec ≤ (compressPassGo D B S items).nBase ∧
    (compressPassGo D B S items).dec
      = sumBy items effMin - sumBy (compressPassGo D B S items).nItems effMin := by
  induction items generalizing D B S with
  | nil =>
    rw [compressPassGo_nil]
    simp only [sumBy_nil] at hB ⊢
    refine ⟨List.Forall₂.nil, by simpa using hDB.trans hB.le, ?_, by simp⟩
    simpa using hDB.trans hB.le
  | cons it rest ih =>
    have hOKh := hOK it (by simp)
    have hOKr : ∀ x ∈ rest, ItemOK x := fun x hx => hOK x (by simp [hx])
    have hcsplit := head_cap_split it rest B S hOK hB hS
    have hcr : 0 ≤ sumBy rest (fun x => x.cap) :=
      sumBy_nonneg (fun x hx => (hOKr x hx).2.1)
    have hcapBS : it.cap ≤ B - S := by linarith
    have hd_minD := cFinal_ge_min D B S it
    have hd_sol := cFinal_ge_sol D B S it
    have hd_base := cFinal_le_base D B S it hOKh hDB
    have hstep := cFinal_ge_step D B S it hOKh hcapBS hDB
    have hB2 : B - it.base = sumBy rest (fun x => x.base) := by
      rw [hB]; simp [sumBy_cons]
    have hS2 : S - it.sol = sumBy rest (fun x => x.sol) := by
      rw [hS]; simp [sumBy_cons]
    have hDB2 : D - cFinal D B S it ≤ B - it.base := by linarith
    obtain ⟨ihF, ihA, ihB, ihD⟩ :=
      ih (D - cFinal D B S it) (B - it.base) (S - it.sol) hOKr hB2 hS2 hDB2
    rw [compressPassGo_cons]
    by_cases hfx : cProposed D B S it ≠ cFinal D B S it ∨ it.cap ≤ 0
    · rw [if_pos hfx]
      have hdeq := cFinal_fixed_eq D B S it hOKh hfx
      refine ⟨List.Forall₂.cons ⟨rfl, hd_minD, hd_sol, hd_base, fun _ => hdeq⟩ ihF,
        ?_, ?_, ?_⟩
      · simp only [consFixedC, sumBy_cons]
        linarith
      · simp only [consFixedC]
        linarith
      · simp only [consFixedC, sumBy_cons]
        linarith
    · rw [if_neg hfx]
      refine ⟨List.Forall₂.cons
        ⟨rfl, hd_minD, hd_sol, hd_base, fun h => (Bool.false_ne_true h).elim⟩ ihF,
        ?_, ?_, ?_⟩
      · simp only [consFlexC, sumBy_cons]
        linarith
      · simp only [consFlexC]
        linarith
      · simp only [consFlexC, sumBy_cons]
        linarith

/-- A pass that fixes nobody hands out exactly `D` (pure proportional
telescoping). -/
theorem cpass_flex_sum (D B S : ℚ) (items : List DItem)
    (hOK : ∀ it ∈ items, ItemOK it)
    (hB : B = sumBy items (fun it => it.base))
    (hS : S = sumBy items (fun it => it.sol))
    (hSD : S ≤ D) (hDB : D ≤ B)
    (hvl : (compressPassGo D B S items).value = (compressPassGo D B S items).limit) :
    sumBy (compressPassGo D B S items).writes (fun w => w.val) = D := by
  induction items generalizing D B S with
  | nil =>
    rw [compressPassGo_nil]
    simp only [sumBy_nil] at hB hS ⊢
    linarith
  | cons it rest ih =>
    have hOKh := hOK it (by simp)
    have hOKr : ∀ x ∈ rest, ItemOK x := fun x hx => hOK x (by simp [hx])
    have hcsplit := head_cap_split it rest B S hOK hB hS
    have hcr : 0 ≤ sumBy rest (fun x => x.cap) :=
      sumBy_nonneg (fun x hx => (hOKr x hx).2.1)
    have hB2 : B - it.base = sumBy rest (fun x => x.base) := by
      rw [hB]; simp [sumBy_cons]
    have hS2 : S - it.sol = sumBy rest (fun x => x.sol) := by
      rw [hS]; simp [sumBy_cons]
    by_cases hfx : cProposed D B S it ≠ cFinal D B S it ∨ it.cap ≤ 0
    · exfalso
      rw [compressPassGo_cons, if_pos hfx] at hvl
      have hle := cpass_value_le_limit (D - cFinal D B S it) (B - it.base) (S - it.sol) rest
      simp only [consFixedC] at hvl
      omega
    · rw [compressPassGo_cons, if_neg hfx] at hvl ⊢
      simp only [consFlexC] at hvl ⊢
      have hvl2 : (compressPassGo (D - cFinal D B S it) (B - it.base) (S - it.sol) rest).value
          = (compressPassGo (D - cFinal D B S it) (B - it.base) (S - it.sol) rest).limit := by
        omega
      push_neg at hfx
      obtain ⟨hpe, hcap⟩ := hfx
      have hd : cFinal D B S it = cProposed D B S it := hpe.symm
      by_cases hg : D - S ≤ 0 ∨ B - S ≤ 0 ∨ it.cap ≤ 0
      · have hpd : cProposed D B S it = it.sol := by
          unfold cProposed
          rw [if_pos hg]
          ring
        have hDS : D = S := by
          rcases hg with h1 | h2 | h3
          · linarith
          · linarith
          · linarith
        have hsb : sumBy rest (fun x => x.sol) ≤ sumBy rest (fun x => x.base) := by
          apply sumBy_le_sumBy
          intro x hx
          obtain ⟨ha, hb, hc, _⟩ := hOKr x hx
          linarith
        have ihh := ih (D - cFinal D B S it) (B - it.base) (S - it.sol) hOKr hB2 hS2
          (by rw [hd, hpd]; linarith) (by rw [hd, hpd]; linarith) hvl2
        simp only [sumBy_cons]
        rw [hd, hpd] at ihh ⊢
        linarith
      · have hpd : cProposed D B S it = (D - S) / (B - S) * it.cap + it.sol := by
          unfold cProposed
          rw [if_neg hg]
        push_neg at hg
        obtain ⟨hg1, hg2, hg3⟩ := hg
        have hq0 : 0 ≤ (D - S) / (B - S) := le_of_lt (div_pos hg1 hg2)
        have hq1 : (D - S) / (B - S) ≤ 1 := (div_le_one hg2).mpr (by linarith)
        have hqm : (D - S) / (B - S) * (B - S) = D - S := div_mul_cancel₀ _ (by linarith)
        have hkey : (D - cFinal D B S it) - (S - it.sol)
            = (D - S) / (B - S) * ((B - S) - it.cap) := by
          rw [hd, hpd]
          have : (D - S) / (B - S) * ((B - S) - it.cap)
              = (D - S) / (B - S) * (B - S) - (D - S) / (B - S) * it.cap := by ring
          rw [this, hqm]
          ring
        have hrest_nonneg : 0 ≤ (B - S) - it.cap := by linarith
        have hS'D' : S - it.sol ≤ D - cFinal D B S it := by
          have := mul_nonneg hq0 hrest_nonneg
          linarith [hkey]
        have hD'B' : D - cFinal D B S it ≤ B - it.base := by
          have hend : (D - S) / (B - S) * ((B - S) - it.cap) ≤ 1 * ((B - S) - it.cap) :=
            mul_le_mul_of_nonneg_right hq1 hrest_nonneg
          have hbb : B - it.base - (S - it.sol) = (B - S) - it.cap := by
            have hsc := hOKh.2.2.1
            linarith
          linarith [hkey]
        have ihh := ih (D - cFinal D B S it) (B - it.base) (S - it.sol) hOKr hB2 hS2
          hS'D' hD'B' hvl2
        simp only [sumBy_cons]
        linarith

end Discadelta

namespace Discadelta

/-! ### Recursion-level lemmas for compression -/

theorem forall₂_map_eq {α β γ : Type _} {f : α → γ} {g : β → γ} {l₁ : List α} {l₂ : List β}
    (h : List.Forall₂ (fun a b => f a = g b) l₁ l₂) : l₁.map f = l₂.map g := by
  induction h with
  | nil => rfl
  | cons hab _ ih => simp [hab, ih]

theorem forall₂_imp_of_mem {α β : Type _} {R Q : α → β → Prop} {l₁ : List α} {l₂ : List β}
    (h : List.Forall₂ R l₁ l₂) (himp : ∀ a ∈ l₁, ∀ b ∈ l₂, R a b → Q a b) :
    List.Forall₂ Q l₁ l₂ := by
  induction h with
  | nil => exact List.Forall₂.nil
  | cons hab htail ih =>
    exact List.Forall₂.cons (himp _ (by simp) _ (by simp) hab)
      (ih (fun a ha b hb hr => himp a (by simp [ha]) b (by simp [hb]) hr))

/-- Per-position clamp invariance of the whole compression recursion:
if every item's min and base fit inside the per-position bounds, every
write stays inside them. -/
theorem compress_bounds_aux (fuel : ℕ) (m : DMetrics) (segs : List DiscadeltaSegment)
    (lo hi : ℕ → ℚ)
    (hOK : ∀ it ∈ m.items, ItemOK it)
    (hB : m.accBase = sumBy m.items (fun it => it.base))
    (hS : m.accSol = sumBy m.items (fun it => it.sol))
    (hDB : m.inputDistance ≤ m.accBase)
    (hitem : ∀ it ∈ m.items, lo it.idx ≤ it.minD ∧ it.base ≤ hi it.idx)
    (hsegs : ∀ j, lo j ≤ distAt segs j ∧ distAt segs j ≤ hi j) :
    ∀ j, lo j ≤ distAt (RedistributeDiscadeltaCompressDistance fuel m segs) j ∧
      distAt (RedistributeDiscadeltaCompressDistance fuel m segs) j ≤ hi j := by
  induction fuel generalizing m segs with
  | zero => exact hsegs
  | succ fuel ih =>
    obtain ⟨hF, hA, hNB, hDec⟩ :=
      cpass_numeric m.inputDistance m.accBase m.accSol m.items hOK hB hS hDB
    have hw : ∀ w ∈ (compressPassGo m.inputDistance m.accBase m.accSol m.items).writes,
        lo w.idx ≤ w.val ∧ w.val ≤ hi w.idx := by
      intro w hwmem
      rcases forall₂_mem_left hF w hwmem with ⟨it, hitmem, hidx, h1, h2, h3, _⟩
      rcases hitem it hitmem with ⟨hl, hh⟩
      rw [hidx]
      exact ⟨le_trans hl h1, le_trans h3 hh⟩
    have hsegs1 : ∀ j,
        lo j ≤ distAt (applyCWrites segs
          (compressPassGo m.inputDistance m.accBase m.accSol m.items).writes) j ∧
        distAt (applyCWrites segs
          (compressPassGo m.inputDistance m.accBase m.accSol m.items).writes) j ≤ hi j := by
      intro j
      have hres := @getD_pred_applyWrites CWrite DiscadeltaSegment
        (fun w => w.idx) (fun w => cUpd w.val)
        (compressPassGo m.inputDistance m.accBase m.accSol m.items).writes segs dfltSeg
        (fun j s => lo j ≤ s.distance ∧ s.distance ≤ hi j)
        (fun j => hsegs j) (fun w hwmem s => hw w hwmem) j
      unfold distAt applyCWrites
      exact hres
    simp only [RedistributeDiscadeltaCompressDistance]
    by_cases hc : (compressPassGo m.inputDistance m.accBase m.accSol m.items).value
        < (compressPassGo m.inputDistance m.accBase m.accSol m.items).limit
    · simp only [if_pos hc]
      apply ih
      · intro it hit
        exact hOK it ((cpass_sublist m.inputDistance m.accBase m.accSol m.items).subset hit)
      · exact cpass_nBase m.inputDistance m.accBase m.accSol m.items
      · exact cpass_nSol m.inputDistance m.accBase m.accSol m.items
      · exact hNB
      · intro it hit
        exact hitem it ((cpass_sublist m.inputDistance m.accBase m.accSol m.items).subset hit)
      · exact hsegs1
    · simp only [if_neg hc]
      exact hsegs1

/-- The compression recursion gives out exactly the input distance on top
of whatever the untouched positions already held, under the effective
feasibility bound `Σ max(min, solidify) ≤ input ≤ Σ base`. -/
theorem compress_sum_aux (fuel : ℕ) (m : DMetrics) (segs : List DiscadeltaSegment)
    (hOK : ∀ it ∈ m.items, ItemOK it)
    (hB : m.accBase = sumBy m.items (fun it => it.base))
    (hS : m.accSol = sumBy m.items (fun it => it.sol))
    (hN : (m.items.map (fun it => it.idx)).Nodup)
    (hRange : ∀ it ∈ m.items, it.idx < segs.length)
    (hlo : sumBy m.items effMin ≤ m.inputDistance)
    (hDB : m.inputDistance ≤ m.accBase)
    (hfuel : m.items.length < fuel) :
    distSum (RedistributeDiscadeltaCompressDistance fuel m segs)
      = distSum segs - sumBy m.items (fun it => distAt segs it.idx) + m.inputDistance := by
  induction fuel generalizing m segs with
  | zero => omega
  | succ fuel ih =>
    obtain ⟨hF, hA, hNB, hDec⟩ :=
      cpass_numeric m.inputDistance m.accBase m.accSol m.items hOK hB hS hDB
    have hmap : (compressPassGo m.inputDistance m.accBase m.accSol m.items).writes.map
        (fun w => w.idx) = m.items.map (fun it => it.idx) :=
      forall₂_map_eq (cpass_writes_idx m.inputDistance m.accBase m.accSol m.items)
    have hNW : ((compressPassGo m.inputDistance m.accBase m.accSol m.items).writes.map
        (fun w => w.idx)).Nodup := by
      rw [hmap]; exact hN
    have hwrange : ∀ w ∈ (compressPassGo m.inputDistance m.accBase m.accSol m.items).writes,
        w.idx < segs.length := by
      intro w hwmem
      have hmem : w.idx ∈ (compressPassGo m.inputDistance m.accBase m.accSol
          m.items).writes.map (fun w => w.idx) := List.mem_map_of_mem _ hwmem
      rw [hmap] at hmem
      rcases List.mem_map.mp hmem with ⟨it, hit, heq⟩
      rw [← heq]
      exact hRange it hit
    have hsum1 : distSum (applyCWrites segs
        (compressPassGo m.inputDistance m.accBase m.accSol m.items).writes)
        = distSum segs
          - sumBy (compressPassGo m.inputDistance m.accBase m.accSol m.items).writes
              (fun w => distAt segs w.idx)
          + sumBy (compressPassGo m.inputDistance m.accBase m.accSol m.items).writes
              (fun w => w.val) := by
      unfold distSum distAt applyCWrites
      exact sumBy_applyWrites (fun s : DiscadeltaSegment => s.distance)
        (fun w : CWrite => w.val) dfltSeg (fun w s => rfl) hNW hwrange
    have hsumold : sumBy (compressPassGo m.inputDistance m.accBase m.accSol m.items).writes
        (fun w => distAt segs w.idx) = sumBy m.items (fun it => distAt segs it.idx) := by
      apply sumBy_forall₂
      exact List.Forall₂.imp (fun a b h => by rw [h])
        (cpass_writes_idx m.inputDistance m.accBase m.accSol m.items)
    have hSeffMin : m.accSol ≤ sumBy m.items effMin := by
      rw [hS]
      exact sumBy_le_sumBy (fun it hit => le_max_right it.minD it.sol)
    have hvll := cpass_value_le_limit m.inputDistance m.accBase m.accSol m.items
    have hval := cpass_value m.inputDistance m.accBase m.accSol m.items
    have hlim := cpass_limit m.inputDistance m.accBase m.accSol m.items
    have hnb := cpass_nBase m.inputDistance m.accBase m.accSol m.items
    have hns := cpass_nSol m.inputDistance m.accBase m.accSol m.items
    have hsubl := cpass_sublist m.inputDistance m.accBase m.accSol m.items
    have hflexalign := cpass_flex_align m.inputDistance m.accBase m.accSol m.items
    have hsplit := cpass_writes_split m.inputDistance m.accBase m.accSol m.items
    have hflexsum := cpass_flex_sum m.inputDistance m.accBase m.accSol m.items hOK hB hS
      (by linarith) hDB
    simp only [RedistributeDiscadeltaCompressDistance]
    generalize hgen : compressPassGo m.inputDistance m.accBase m.accSol m.items = o
      at hF hA hNB hDec hmap hNW hwrange hsum1 hsumold hvll hval hlim hnb hns hsubl
        hflexalign hsplit hflexsum ⊢
    by_cases hc : o.value < o.limit
    · rw [if_pos hc]
      have hreadback : ∀ w ∈ o.writes.filter (fun w => !w.fixed),
          distAt (applyCWrites segs o.writes) w.idx = w.val := by
        intro w hwmem
        have hwfull := List.mem_of_mem_filter hwmem
        have hget := @getD_applyWrites_mem CWrite DiscadeltaSegment
          (fun w => w.idx) (fun w => cUpd w.val) o.writes segs w dfltSeg hNW hwfull
          (hwrange w hwfull)
        unfold distAt applyCWrites
        simp only at hget
        rw [hget]
        rfl
      have hflexval : sumBy (o.writes.filter (fun w => !w.fixed)) (fun w => w.val)
          = sumBy o.nItems (fun it => distAt (applyCWrites segs o.writes) it.idx) := by
        apply sumBy_forall₂
        apply forall₂_imp_of_mem hflexalign
        intro w hw it hit hidx
        rw [← hidx]
        exact (hreadback w hw).symm
      have hOK2 : ∀ it ∈ o.nItems, ItemOK it := fun it hit => hOK it (hsubl.subset hit)
      have hN2 : (o.nItems.map (fun it => it.idx)).Nodup :=
        List.Nodup.sublist (hsubl.map (fun it => it.idx)) hN
      have hRange2 : ∀ it ∈ o.nItems, it.idx < (applyCWrites segs o.writes).length := by
        intro it hit
        unfold applyCWrites
        rw [length_applyWrites]
        exact hRange it (hsubl.subset hit)
      have hlo2 : sumBy o.nItems effMin ≤ m.inputDistance - o.dec := by linarith
      have hfuel2 : o.nItems.length < fuel := by omega
      have ihh : distSum (RedistributeDiscadeltaCompressDistance fuel
          ⟨m.inputDistance - o.dec, o.nItems, o.nBase, o.nSol, 0⟩
          (applyCWrites segs o.writes))
          = distSum (applyCWrites segs o.writes)
            - sumBy o.nItems (fun it => distAt (applyCWrites segs o.writes) it.idx)
            + (m.inputDistance - o.dec) :=
        ih ⟨m.inputDistance - o.dec, o.nItems, o.nBase, o.nSol, 0⟩
          (applyCWrites segs o.writes) hOK2 hnb hns hN2 hRange2 hlo2 hNB hfuel2
      rw [ihh]
      linarith
    · rw [if_neg hc]
      have hvl : o.value = o.limit := by omega
      have hDfull := hflexsum hvl
      rw [hsum1, hsumold, hDfull]

end Discadelta

namespace Discadelta

/-! ### Per-item and structural facts about the expansion loop -/

theorem expandPassGo_nil (S R : ℚ) : expandPassGo S R [] = ⟨[], 0, 0, 0, [], 0, 0⟩ := rfl

theorem expandPassGo_cons (S R : ℚ) (it : DItem) (rest : List DItem) :
    expandPassGo S R (it :: rest) =
      if eFinal S R it ≠ eDelta S R it ∨ it.er ≤ 0 then
        consFixedE it (eFinal S R it) (expandPassGo (S - eFinal S R it) (R - it.er) rest)
      else
        consFlexE it (eFinal S R it) (expandPassGo (S - eFinal S R it) (R - it.er) rest) := rfl

theorem eDelta_nonneg (S R : ℚ) (it : DItem) (hS : 0 ≤ S) : 0 ≤ eDelta S R it := by
  unfold eDelta
  split_ifs with h
  · exact le_refl 0
  · push_neg at h
    exact mul_nonneg (div_nonneg hS h.1.le) h.2.le

theorem eFinal_nonneg (S R : ℚ) (it : DItem) (hS : 0 ≤ S) : 0 ≤ eFinal S R it :=
  le_min (eDelta_nonneg S R it hS) (le_max_left 0 _)

theorem eFinal_le_effDelta (S R : ℚ) (it : DItem) : eFinal S R it ≤ effDelta it := by
  unfold effDelta
  split_ifs with h
  · have hd : eDelta S R it = 0 := by
      unfold eDelta
      rw [if_pos (Or.inr h)]
    calc eFinal S R it ≤ eDelta S R it := min_le_left _ _
      _ = 0 := hd
  · exact min_le_right _ _

theorem eDelta_le_S (S R : ℚ) (it : DItem) (hS : 0 ≤ S) (hRer : it.er ≤ R) :
    eDelta S R it ≤ S := by
  unfold eDelta
  split_ifs with h
  · exact hS
  · push_neg at h
    have h1 : S / R * it.er ≤ S / R * R :=
      mul_le_mul_of_nonneg_left hRer (div_nonneg hS h.1.le)
    have h2 : S / R * R = S := div_mul_cancel₀ _ (ne_of_gt h.1)
    linarith

theorem eFinal_le_S (S R : ℚ) (it : DItem) (hS : 0 ≤ S) (hRer : it.er ≤ R) :
    eFinal S R it ≤ S :=
  le_trans (min_le_left _ _) (eDelta_le_S S R it hS hRer)

theorem eFinal_fixed_eq (S R : ℚ) (it : DItem)
    (hfx : eFinal S R it ≠ eDelta S R it ∨ it.er ≤ 0) :
    eFinal S R it = effDelta it := by
  by_cases her : it.er ≤ 0
  · have hd : eDelta S R it = 0 := by
      unfold eDelta
      rw [if_pos (Or.inr her)]
    unfold effDelta
    rw [if_pos her, eFinal, hd]
    exact min_eq_left (le_max_left 0 _)
  · rcases hfx with hne | habs
    · have hlt : ¬ eDelta S R it ≤ max 0 (it.maxD - it.base) := by
        intro hle
        exact hne (min_eq_left hle)
      unfold effDelta
      rw [if_neg her, eFinal]
      exact min_eq_right (le_of_not_le hlt)
    · exact absurd habs her

theorem epass_limit (S R : ℚ) (items : List DItem) :
    (expandPassGo S R items).limit = items.length := by
  induction items generalizing S R with
  | nil => rfl
  | cons it rest ih =>
    rw [expandPassGo_cons]
    by_cases hfx : eFinal S R it ≠ eDelta S R it ∨ it.er ≤ 0
    · rw [if_pos hfx]; simp [consFixedE, ih]
    · rw [if_neg hfx]; simp [consFlexE, ih]

theorem epass_value (S R : ℚ) (items : List DItem) :
    (expandPassGo S R items).value = (expandPassGo S R items).nItems.length := by
  induction items generalizing S R with
  | nil => rfl
  | cons it rest ih =>
    rw [expandPassGo_cons]
    by_cases hfx : eFinal S R it ≠ eDelta S R it ∨ it.er ≤ 0
    · rw [if_pos hfx]; simpa [consFixedE] using ih _ _
    · rw [if_neg hfx]; simpa [consFlexE] using ih _ _

theorem epass_sublist (S R : ℚ) (items : List DItem) :
    List.Sublist (expandPassGo S R items).nItems items := by
  induction items generalizing S R with
  | nil => exact List.Sublist.refl _
  | cons it rest ih =>
    rw [expandPassGo_cons]
    by_cases hfx : eFinal S R it ≠ eDelta S R it ∨ it.er ≤ 0
    · rw [if_pos hfx]
      exact List.Sublist.cons it (ih _ _)
    · rw [if_neg hfx]
      exact List.Sublist.cons₂ it (ih _ _)

theorem epass_value_le_limit (S R : ℚ) (items : List DItem) :
    (expandPassGo S R items).value ≤ (expandPassGo S R items).limit := by
  rw [epass_value, epass_limit]
  exact (epass_sublist S R items).length_le

theorem epass_nBase (S R : ℚ) (items : List DItem) :
    (expandPassGo S R items).nBase
      = sumBy (expandPassGo S R items).nItems (fun it => it.base) := by
  induction items generalizing S R with
  | nil => simp [expandPassGo_nil]
  | cons it rest ih =>
    rw [expandPassGo_cons]
    by_cases hfx : eFinal S R it ≠ eDelta S R it ∨ it.er ≤ 0
    · rw [if_pos hfx]; simpa [consFixedE] using ih _ _
    · rw [if_neg hfx]; simp [consFlexE, ih _ _]; ring

theorem epass_nER (S R : ℚ) (items : List DItem) :
    (expandPassGo S R items).nER
      = sumBy (expandPassGo S R items).nItems (fun it => it.er) := by
  induction items generalizing S R with
  | nil => simp [expandPassGo_nil]
  | cons it rest ih =>
    rw [expandPassGo_cons]
    by_cases hfx : eFinal S R it ≠ eDelta S R it ∨ it.er ≤ 0
    · rw [if_pos hfx]; simpa [consFixedE] using ih _ _
    · rw [if_neg hfx]; simp [consFlexE, ih _ _]; ring

theorem epass_writes_split (S R : ℚ) (items : List DItem) :
    sumBy (expandPassGo S R items).writes (fun w => w.delta)
      = (expandPassGo S R items).dec
        + sumBy ((expandPassGo S R items).writes.filter fun w => !w.fixed)
            (fun w => w.delta) := by
  induction items generalizing S R with
  | nil => simp [expandPassGo_nil]
  | cons it rest ih =>
    rw [expandPassGo_cons]
    by_cases hfx : eFinal S R it ≠ eDelta S R it ∨ it.er ≤ 0
    · rw [if_pos hfx]
      simp only [consFixedE, sumBy_cons, List.filter_cons]
      norm_num
      rw [ih]
      ring
    · rw [if_neg hfx]
      simp only [consFlexE, sumBy_cons, List.filter_cons]
      norm_num
      rw [ih]
      ring

theorem epass_flex_align (S R : ℚ) (items : List DItem) :
    List.Forall₂ (fun (w : EWrite) (it : DItem) =>
        w.idx = it.idx ∧ w.dist = it.base + w.delta)
      ((expandPassGo S R items).writes.filter fun w => !w.fixed)
      (expandPassGo S R items).nItems := by
  induction items generalizing S R with
  | nil => exact List.Forall₂.nil
  | cons it rest ih =>
    rw [expandPassGo_cons]
    by_cases hfx : eFinal S R it ≠ eDelta S R it ∨ it.er ≤ 0
    · rw [if_pos hfx]
      simpa [consFixedE, List.filter_cons] using ih _ _
    · rw [if_neg hfx]
      simp only [consFlexE]
      rw [List.filter_cons_of_pos]
      · exact List.Forall₂.cons ⟨rfl, rfl⟩ (ih _ _)
      · rfl

end Discadelta

namespace Discadelta

/-! ### Numeric facts about one expansion pass -/

theorem sumBy_sub {α : Type _} (l : List α) (f g : α → ℚ) :
    sumBy l (fun x => f x - g x) = sumBy l f - sumBy l g := by
  induction l with
  | nil => simp
  | cons a t ih => simp only [sumBy_cons, ih]; ring

theorem forall₂_mem_right {α β : Type _} {R : α → β → Prop} {l₁ : List α} {l₂ : List β}
    (h : List.Forall₂ R l₁ l₂) : ∀ b ∈ l₂, ∃ a ∈ l₁, R a b := by
  induction h with
  | nil => simp
  | cons hab _ ih =>
    intro b hb
    rcases List.mem_cons.mp hb with hh | hh
    · exact ⟨_, by simp, hh ▸ hab⟩
    · rcases ih b hh with ⟨a, ha, hr⟩
      exact ⟨a, by simp [ha], hr⟩

/-- Per-pass accounting for expansion: every delta is between `0` and the
child's effective headroom, fixed deltas are exactly the headroom, the
fixed total and the whole total never exceed the surplus, and the fixed
total is the drop in headroom mass. -/
theorem epass_numeric (S R : ℚ) (items : List DItem)
    (hOK : ∀ it ∈ items, ItemOK it)
    (hR : R = sumBy items (fun it => it.er))
    (hS : 0 ≤ S) :
    List.Forall₂ (fun (w : EWrite) (it : DItem) =>
        w.idx = it.idx ∧ 0 ≤ w.delta ∧ w.delta ≤ effDelta it ∧
        w.dist = it.base + w.delta ∧ (w.fixed = true → w.delta = effDelta it))
      (expandPassGo S R items).writes items ∧
    (expandPassGo S R items).dec ≤ S ∧
    sumBy (expandPassGo S R items).writes (fun w => w.delta) ≤ S ∧
    (expandPassGo S R items).dec
      = sumBy items effDelta - sumBy (expandPassGo S R items).nItems effDelta := by
  induction items generalizing S R with
  | nil =>
    rw [expandPassGo_nil]
    exact ⟨List.Forall₂.nil, by simpa using hS, by simpa using hS, by simp⟩
  | cons it rest ih =>
    have hOKh := hOK it (by simp)
    have hOKr : ∀ x ∈ rest, ItemOK x := fun x hx => hOK x (by simp [hx])
    have herr : 0 ≤ sumBy rest (fun x => x.er) :=
      sumBy_nonneg (fun x hx => (hOKr x hx).2.2.2.2.2.2)
    have hRer : it.er ≤ R := by
      rw [hR]; simp only [sumBy_cons]; linarith
    have hcd0 : 0 ≤ eFinal S R it := eFinal_nonneg S R it hS
    have hcdS : eFinal S R it ≤ S := eFinal_le_S S R it hS hRer
    have hcdeff : eFinal S R it ≤ effDelta it := eFinal_le_effDelta S R it
    have hR2 : R - it.er = sumBy rest (fun x => x.er) := by
      rw [hR]; simp [sumBy_cons]
    have hS2 : 0 ≤ S - eFinal S R it := by linarith
    obtain ⟨ihF, ihDec, ihSum, ihD⟩ := ih (S - eFinal S R it) (R - it.er) hOKr hR2 hS2
    rw [expandPassGo_cons]
    by_cases hfx : eFinal S R it ≠ eDelta S R it ∨ it.er ≤ 0
    · rw [if_pos hfx]
      have hdeq := eFinal_fixed_eq S R it hfx
      refine ⟨List.Forall₂.cons ⟨rfl, hcd0, hcdeff, rfl, fun _ => hdeq⟩ ihF, ?_, ?_, ?_⟩
      · simp only [consFixedE]
        linarith
      · simp only [consFixedE, sumBy_cons]
        linarith
      · simp only [consFixedE, sumBy_cons]
        linarith
    · rw [if_neg hfx]
      refine ⟨List.Forall₂.cons
        ⟨rfl, hcd0, hcdeff, rfl, fun h => (Bool.false_ne_true h).elim⟩ ihF, ?_, ?_, ?_⟩
      · simp only [consFlexE]
        linarith
      · simp only [consFlexE, sumBy_cons]
        linarith
      · simp only [consFlexE, sumBy_cons]
        linarith

/-- An expansion pass that fixes nobody distributes exactly the surplus. -/
theorem epass_flex_sum (S R : ℚ) (items : List DItem)
    (hOK : ∀ it ∈ items, ItemOK it)
    (hR : R = sumBy items (fun it => it.er))
    (hS : 0 ≤ S)
    (hne : items ≠ [])
    (hvl : (expandPassGo S R items).value = (expandPassGo S R items).limit) :
    sumBy (expandPassGo S R items).writes (fun w => w.delta) = S := by
  induction items generalizing S R with
  | nil => exact absurd rfl hne
  | cons it rest ih =>
    have hOKh := hOK it (by simp)
    have hOKr : ∀ x ∈ rest, ItemOK x := fun x hx => hOK x (by simp [hx])
    have herr : 0 ≤ sumBy rest (fun x => x.er) :=
      sumBy_nonneg (fun x hx => (hOKr x hx).2.2.2.2.2.2)
    have hR2 : R - it.er = sumBy rest (fun x => x.er) := by
      rw [hR]; simp [sumBy_cons]
    by_cases hfx : eFinal S R it ≠ eDelta S R it ∨ it.er ≤ 0
    · exfalso
      rw [expandPassGo_cons, if_pos hfx] at hvl
      have hle := epass_value_le_limit (S - eFinal S R it) (R - it.er) rest
      simp only [consFixedE] at hvl
      omega
    · rw [expandPassGo_cons, if_neg hfx] at hvl ⊢
      simp only [consFlexE] at hvl ⊢
      push_neg at hfx
      obtain ⟨hpe, her⟩ := hfx
      have hRpos : 0 < R := by
        rw [hR]; simp only [sumBy_cons]; linarith
      have hdelta : eDelta S R it = S / R * it.er := by
        unfold eDelta
        rw [if_neg (by push_neg; exact ⟨hRpos, her⟩)]
      have hRer : it.er ≤ R := by
        rw [hR]; simp only [sumBy_cons]; linarith
      have hcdS : eFinal S R it ≤ S := eFinal_le_S S R it hS hRer
      cases rest with
      | nil =>
        have hReq : R = it.er := by
          rw [hR]; simp [sumBy_cons]
        rw [expandPassGo_nil]
        simp only [sumBy_cons, sumBy_nil]
        rw [hpe, hdelta, hReq]
        rw [div_mul_cancel₀ _ (ne_of_gt her)]
        ring
      | cons r rs =>
        have hvl2 : (expandPassGo (S - eFinal S R it) (R - it.er) (r :: rs)).value
            = (expandPassGo (S - eFinal S R it) (R - it.er) (r :: rs)).limit := by
          omega
        have ihh := ih (S - eFinal S R it) (R - it.er) hOKr hR2 (by linarith)
          (by simp) hvl2
        simp only [sumBy_cons]
        linarith

end Discadelta

namespace Discadelta

/-! ### Recursion-level lemmas for expansion -/

theorem base_add_effDelta_le (it : DItem) (h : it.base ≤ it.maxD) :
    it.base + effDelta it ≤ it.maxD := by
  unfold effDelta
  split_ifs with h2
  · linarith
  · rw [max_eq_right (by linarith : (0 : ℚ) ≤ it.maxD - it.base)]
    linarith

/-- Per-position clamp invariance of the whole expansion recursion. -/
theorem expand_bounds_aux (fuel : ℕ) (m : DMetrics) (segs : List DiscadeltaSegment)
    (lo hi : ℕ → ℚ)
    (hOK : ∀ it ∈ m.items, ItemOK it)
    (hR : m.accER = sumBy m.items (fun it => it.er))
    (hitem : ∀ it ∈ m.items, lo it.idx ≤ it.base ∧ it.maxD ≤ hi it.idx)
    (hsegs : ∀ j, lo j ≤ distAt segs j ∧ distAt segs j ≤ hi j) :
    ∀ j, lo j ≤ distAt (RedistributeDiscadeltaExpandDistance fuel m segs) j ∧
      distAt (RedistributeDiscadeltaExpandDistance fuel m segs) j ≤ hi j := by
  induction fuel generalizing m segs with
  | zero => exact hsegs
  | succ fuel ih =>
    simp only [RedistributeDiscadeltaExpandDistance]
    by_cases hS0 : max (m.inputDistance - m.accBase) 0 ≤ 0
    · rw [if_pos hS0]
      exact hsegs
    · rw [if_neg hS0]
      have hSnn : 0 ≤ max (m.inputDistance - m.accBase) 0 := le_max_right _ _
      obtain ⟨hF, hDec, hSum, hDfix⟩ := epass_numeric (max (m.inputDistance - m.accBase) 0)
        m.accER m.items hOK hR hSnn
      have hw : ∀ w ∈ (expandPassGo (max (m.inputDistance - m.accBase) 0)
          m.accER m.items).writes, lo w.idx ≤ w.dist ∧ w.dist ≤ hi w.idx := by
        intro w hwmem
        rcases forall₂_mem_left hF w hwmem with ⟨it, hitmem, hidx, h0, heff, hdist, _⟩
        rcases hitem it hitmem with ⟨hl, hh⟩
        have hbm := (hOK it hitmem).2.2.2.2.2.1
        have hcap := base_add_effDelta_le it hbm
        rw [hidx, hdist]
        constructor
        · linarith
        · linarith
      have hsegs1 : ∀ j,
          lo j ≤ distAt (applyEWrites segs (expandPassGo
            (max (m.inputDistance - m.accBase) 0) m.accER m.items).writes) j ∧
          distAt (applyEWrites segs (expandPassGo
            (max (m.inputDistance - m.accBase) 0) m.accER m.items).writes) j ≤ hi j := by
        intro j
        have hres := @getD_pred_applyWrites EWrite DiscadeltaSegment
          (fun w => w.idx) eUpd
          (expandPassGo (max (m.inputDistance - m.accBase) 0) m.accER m.items).writes
          segs dfltSeg
          (fun j s => lo j ≤ s.distance ∧ s.distance ≤ hi j)
          (fun j => hsegs j) (fun w hwmem s => hw w hwmem) j
        unfold distAt applyEWrites
        exact hres
      by_cases hc : (expandPassGo (max (m.inputDistance - m.accBase) 0)
          m.accER m.items).value < (expandPassGo (max (m.inputDistance - m.accBase) 0)
          m.accER m.items).limit
      · rw [if_pos hc]
        apply ih
        · intro it hit
          exact hOK it ((epass_sublist _ _ _).subset hit)
        · exact epass_nER _ _ _
        · intro it hit
          exact hitem it ((epass_sublist _ _ _).subset hit)
        · exact hsegs1
      · rw [if_neg hc]
        exact hsegs1

/-- The expansion recursion adds exactly the surplus to the items' bases,
under the headroom feasibility bound. -/
theorem expand_sum_aux (fuel : ℕ) (m : DMetrics) (segs : List DiscadeltaSegment)
    (hOK : ∀ it ∈ m.items, ItemOK it)
    (hR : m.accER = sumBy m.items (fun it => it.er))
    (hN : (m.items.map (fun it => it.idx)).Nodup)
    (hRange : ∀ it ∈ m.items, it.idx < segs.length)
    (hfeas : max (m.inputDistance - m.accBase) 0 ≤ sumBy m.items effDelta)
    (hzero : max (m.inputDistance - m.accBase) 0 = 0 →
      ∀ it ∈ m.items, distAt segs it.idx = it.base)
    (hfuel : m.items.length < fuel) :
    distSum (RedistributeDiscadeltaExpandDistance fuel m segs)
      = distSum segs - sumBy m.items (fun it => distAt segs it.idx)
        + sumBy m.items (fun it => it.base) + max (m.inputDistance - m.accBase) 0 := by
  induction fuel generalizing m segs with
  | zero => omega
  | succ fuel ih =>
    simp only [RedistributeDiscadeltaExpandDistance]
    by_cases hS0 : max (m.inputDistance - m.accBase) 0 ≤ 0
    · rw [if_pos hS0]
      have hSz : max (m.inputDistance - m.accBase) 0 = 0 :=
        le_antisymm hS0 (le_max_right _ _)
      have hpt : sumBy m.items (fun it => distAt segs it.idx)
          = sumBy m.items (fun it => it.base) :=
        sumBy_congr (fun it hit => hzero hSz it hit)
      rw [hSz]
      linarith
    · rw [if_neg hS0]
      have hSnn : 0 ≤ max (m.inputDistance - m.accBase) 0 := le_max_right _ _
      obtain ⟨hF, hDec, hSum, hDfix⟩ := epass_numeric (max (m.inputDistance - m.accBase) 0)
        m.accER m.items hOK hR hSnn
      have hmap : (expandPassGo (max (m.inputDistance - m.accBase) 0)
          m.accER m.items).writes.map (fun w => w.idx) = m.items.map (fun it => it.idx) :=
        forall₂_map_eq (List.Forall₂.imp (fun a b h => h.1) hF)
      have hNW : ((expandPassGo (max (m.inputDistance - m.accBase) 0)
          m.accER m.items).writes.map (fun w => w.idx)).Nodup := by
        rw [hmap]; exact hN
      have hwrange : ∀ w ∈ (expandPassGo (max (m.inputDistance - m.accBase) 0)
          m.accER m.items).writes, w.idx < segs.length := by
        intro w hwmem
        have hmem : w.idx ∈ (expandPassGo (max (m.inputDistance - m.accBase) 0)
            m.accER m.items).writes.map (fun w => w.idx) := List.mem_map_of_mem _ hwmem
        rw [hmap] at hmem
        rcases List.mem_map.mp hmem with ⟨it, hit, heq⟩
        rw [← heq]
        exact hRange it hit
      have hsum1 : distSum (applyEWrites segs (expandPassGo
          (max (m.inputDistance - m.accBase) 0) m.accER m.items).writes)
          = distSum segs
            - sumBy (expandPassGo (max (m.inputDistance - m.accBase) 0)
                m.accER m.items).writes (fun w => distAt segs w.idx)
            + sumBy (expandPassGo (max (m.inputDistance - m.accBase) 0)
                m.accER m.items).writes (fun w => w.dist) := by
        unfold distSum distAt applyEWrites
        exact sumBy_applyWrites (fun s : DiscadeltaSegment => s.distance)
          (fun w : EWrite => w.dist) dfltSeg (fun w s => rfl) hNW hwrange
      have hsumold : sumBy (expandPassGo (max (m.inputDistance - m.accBase) 0)
          m.accER m.items).writes (fun w => distAt segs w.idx)
          = sumBy m.items (fun it => distAt segs it.idx) := by
        apply sumBy_forall₂
        exact List.Forall₂.imp (fun a b h => by rw [h.1]) hF
      have hdistsplit : sumBy (expandPassGo (max (m.inputDistance - m.accBase) 0)
          m.accER m.items).writes (fun w => w.dist)
          = sumBy m.items (fun it => it.base)
            + sumBy (expandPassGo (max (m.inputDistance - m.accBase) 0)
                m.accER m.items).writes (fun w => w.delta) := by
        have h1 : sumBy (expandPassGo (max (m.inputDistance - m.accBase) 0)
            m.accER m.items).writes (fun w => w.dist - w.delta)
            = sumBy m.items (fun it => it.base) :=
          sumBy_forall₂ (List.Forall₂.imp (fun a b h => by rw [h.2.2.2.1]; ring) hF)
        have h2 := sumBy_sub (expandPassGo (max (m.inputDistance - m.accBase) 0)
            m.accER m.items).writes (fun w => w.dist) (fun w => w.delta)
        linarith
      have hvll := epass_value_le_limit (max (m.inputDistance - m.accBase) 0) m.accER m.items
      have hval := epass_value (max (m.inputDistance - m.accBase) 0) m.accER m.items
      have hlim := epass_limit (max (m.inputDistance - m.accBase) 0) m.accER m.items
      have hner := epass_nER (max (m.inputDistance - m.accBase) 0) m.accER m.items
      have hsubl := epass_sublist (max (m.inputDistance - m.accBase) 0) m.accER m.items
      have hflexalign := epass_flex_align (max (m.inputDistance - m.accBase) 0) m.accER m.items
      have hsplit := epass_writes_split (max (m.inputDistance - m.accBase) 0) m.accER m.items
      have hne : m.items ≠ [] := by
        intro hcon
        rw [hcon] at hfeas
        simp only [sumBy_nil] at hfeas
        exact hS0 (by linarith)
      have hflexsum := epass_flex_sum (max (m.inputDistance - m.accBase) 0) m.accER m.items
        hOK hR hSnn hne
      generalize hgen : expandPassGo (max (m.inputDistance - m.accBase) 0) m.accER m.items = o
        at hF hDec hSum hDfix hmap hNW hwrange hsum1 hsumold hdistsplit hvll hval hlim
          hner hsubl hflexalign hsplit hflexsum ⊢
      by_cases hc : o.value < o.limit
      · rw [if_pos hc]
        have hreadback : ∀ w ∈ o.writes.filter (fun w => !w.fixed),
            distAt (applyEWrites segs o.writes) w.idx = w.dist := by
          intro w hwmem
          have hwfull := List.mem_of_mem_filter hwmem
          have hget := @getD_applyWrites_mem EWrite DiscadeltaSegment
            (fun w => w.idx) eUpd o.writes segs w dfltSeg hNW hwfull
            (hwrange w hwfull)
          unfold distAt applyEWrites
          simp only at hget
          rw [hget]
          rfl
        have hwd0 : ∀ w ∈ o.writes, 0 ≤ w.delta := by
          intro w hwmem
          rcases forall₂_mem_left hF w hwmem with ⟨it, hitmem, _, h0, _⟩
          exact h0
        have hOK2 : ∀ it ∈ o.nItems, ItemOK it := fun it hit => hOK it (hsubl.subset hit)
        have hN2 : (o.nItems.map (fun it => it.idx)).Nodup :=
          List.Nodup.sublist (hsubl.map (fun it => it.idx)) hN
        have hRange2 : ∀ it ∈ o.nItems, it.idx < (applyEWrites segs o.writes).length := by
          intro it hit
          unfold applyEWrites
          rw [length_applyWrites]
          exact hRange it (hsubl.subset hit)
        have hmx : max (max (m.inputDistance - m.accBase) 0 - o.dec + o.nBase - o.nBase) 0
            = max (m.inputDistance - m.accBase) 0 - o.dec := by
          rw [show max (m.inputDistance - m.accBase) 0 - o.dec + o.nBase - o.nBase
              = max (m.inputDistance - m.accBase) 0 - o.dec by ring]
          exact max_eq_left (by linarith)
        have hfeas2 : max (max (m.inputDistance - m.accBase) 0 - o.dec + o.nBase - o.nBase) 0
            ≤ sumBy o.nItems effDelta := by
          rw [hmx]
          linarith
        have hzero2 : max (max (m.inputDistance - m.accBase) 0 - o.dec + o.nBase - o.nBase) 0
            = 0 → ∀ it ∈ o.nItems, distAt (applyEWrites segs o.writes) it.idx = it.base := by
          rw [hmx]
          intro hz it hit
          have hflexnn : ∀ w ∈ o.writes.filter (fun w => !w.fixed), 0 ≤ w.delta :=
            fun w hw => hwd0 w (List.mem_of_mem_filter hw)
          have hflexz : sumBy (o.writes.filter (fun w => !w.fixed)) (fun w => w.delta) ≤ 0 := by
            linarith
          have hallz := sumBy_eq_zero hflexnn hflexz
          rcases forall₂_mem_right hflexalign it hit with ⟨w, hwmem, hidx, hdist⟩
          rw [← hidx, hreadback w hwmem, hdist, hallz w hwmem]
          ring
        have hfuel2 : o.nItems.length < fuel := by omega
        have ihh : distSum (RedistributeDiscadeltaExpandDistance fuel
            ⟨max (m.inputDistance - m.accBase) 0 - o.dec + o.nBase, o.nItems, o.nBase, 0,
              o.nER⟩ (applyEWrites segs o.writes))
            = distSum (applyEWrites segs o.writes)
              - sumBy o.nItems (fun it => distAt (applyEWrites segs o.writes) it.idx)
              + sumBy o.nItems (fun it => it.base)
              + max (max (m.inputDistance - m.accBase) 0 - o.dec + o.nBase - o.nBase) 0 :=
          ih ⟨max (m.inputDistance - m.accBase) 0 - o.dec + o.nBase, o.nItems, o.nBase, 0,
              o.nER⟩ (applyEWrites segs o.writes) hOK2 hner hN2 hRange2 hfeas2 hzero2 hfuel2
        rw [ihh, hmx]
        have hflexval : sumBy (o.writes.filter (fun w => !w.fixed)) (fun w => w.dist)
            = sumBy o.nItems (fun it => distAt (applyEWrites segs o.writes) it.idx) := by
          apply sumBy_forall₂
          apply forall₂_imp_of_mem hflexalign
          intro w hw it hit hrel
          rw [← hrel.1]
          exact (hreadback w hw).symm
        have hflexdistsplit : sumBy (o.writes.filter (fun w => !w.fixed)) (fun w => w.dist)
            = sumBy o.nItems (fun it => it.base)
              + sumBy (o.writes.filter (fun w => !w.fixed)) (fun w => w.delta) := by
          have h1 : sumBy (o.writes.filter (fun w => !w.fixed)) (fun w => w.dist - w.delta)
              = sumBy o.nItems (fun it => it.base) :=
            sumBy_forall₂ (List.Forall₂.imp (fun a b h => by rw [h.2]; ring) hflexalign)
          have h2 := sumBy_sub (o.writes.filter (fun w => !w.fixed))
            (fun w => w.dist) (fun w => w.delta)
          linarith
        linarith
      · rw [if_neg hc]
        have hvl : o.value = o.limit := by omega
        have hDfull := hflexsum hvl
        rw [hsum1, hsumold, hdistsplit, hDfull]
        ring

end Discadelta

namespace Discadelta

/-! ### Bridge lemmas from ingestion to the recursion-level theorems -/

theorem sumBy_map {α β : Type _} (l : List α) (f : α → β) (g : β → ℚ) :
    sumBy (l.map f) g = sumBy l (fun a => g (f a)) := by
  unfold sumBy
  rw [List.map_map]
  rfl

theorem mem_mkItems_idx (cs : List DiscadeltaSegmentConfig) :
    ∀ (i : ℕ), ∀ it ∈ mkItems i cs,
      ∃ k, k < cs.length ∧ it = mkItem (i + k) (cs.getD k dfltCfg) := by
  induction cs with
  | nil =>
    intro i it hit
    simp [mkItems] at hit
  | cons c cs ih =>
    intro i it hit
    rcases List.mem_cons.mp hit with hh | hh
    · exact ⟨0, by simp, by simpa using hh⟩
    · rcases ih (i + 1) it hh with ⟨k, hk, he⟩
      refine ⟨k + 1, by simpa using Nat.succ_lt_succ hk, ?_⟩
      rw [List.getD_cons_succ, show i + (k + 1) = i + 1 + k by omega]
      exact he

theorem mkItems_map_idx (cs : List DiscadeltaSegmentConfig) :
    ∀ (i : ℕ), (mkItems i cs).map (fun it => it.idx) = List.range' i cs.length := by
  induction cs with
  | nil => intro i; rfl
  | cons c cs ih =>
    intro i
    simp only [mkItems, List.map_cons, List.length_cons, List.range'_succ, ih]
    rfl

theorem mkItems_idx_nodup (cs : List DiscadeltaSegmentConfig) (i : ℕ) :
    ((mkItems i cs).map (fun it => it.idx)).Nodup := by
  rw [mkItems_map_idx]
  exact List.nodup_range' _ _

theorem distAt_map_mkSeg (cs : List DiscadeltaSegmentConfig) :
    ∀ (k : ℕ), k < cs.length →
      distAt (cs.map mkSeg) k = normBase (cs.getD k dfltCfg) := by
  induction cs with
  | nil =>
    intro k hk
    simp at hk
  | cons c cs ih =>
    intro k hk
    cases k with
    | zero => simp [distAt, mkSeg]
    | succ k =>
      simp only [List.map_cons, distAt, List.getD_cons_succ]
      exact ih k (by simpa using hk)

theorem distSum_map_mkSeg (cs : List DiscadeltaSegmentConfig) :
    distSum (cs.map mkSeg) = sumBy cs normBase := by
  unfold distSum
  rw [sumBy_map]
  rfl

theorem sum_distAt_base (cs : List DiscadeltaSegmentConfig) :
    ∀ (i : ℕ) (segs : List DiscadeltaSegment),
    (∀ k, k < cs.length → distAt segs (i + k) = normBase (cs.getD k dfltCfg)) →
    sumBy (mkItems i cs) (fun it => distAt segs it.idx) = sumBy cs normBase := by
  induction cs with
  | nil => intro i segs h; rfl
  | cons c cs ih =>
    intro i segs h
    show sumBy (mkItem i c :: mkItems (i + 1) cs) (fun it => distAt segs it.idx)
      = sumBy (c :: cs) normBase
    rw [sumBy_cons, sumBy_cons]
    have h0 : distAt segs (mkItem i c).idx = normBase c := by simpa using h 0 (by simp)
    rw [h0, ih (i + 1) segs ?_]
    intro k hk
    rw [show i + 1 + k = i + (k + 1) by omega]
    simpa using h (k + 1) (by simpa using Nat.succ_lt_succ hk)

theorem sumBy_mkItems (cs : List DiscadeltaSegmentConfig) (g : DItem → ℚ)
    (g0 : DiscadeltaSegmentConfig → ℚ) (h : ∀ i c, g (mkItem i c) = g0 c) :
    ∀ (i : ℕ), sumBy (mkItems i cs) g = sumBy cs g0 := by
  induction cs with
  | nil => intro i; rfl
  | cons c cs ih =>
    intro i
    show sumBy (mkItem i c :: mkItems (i + 1) cs) g = sumBy (c :: cs) g0
    rw [sumBy_cons, sumBy_cons, h, ih]

theorem effMinCfg_nonneg (c : DiscadeltaSegmentConfig) : 0 ≤ effMinCfg c :=
  le_trans (normMin_nonneg c) (le_max_left _ _)

theorem effMaxCfg_ge_base (c : DiscadeltaSegmentConfig) : normBase c ≤ effMaxCfg c := by
  unfold effMaxCfg
  split_ifs with h
  · exact le_refl _
  · exact normBase_le_normMax c

theorem effDelta_mkItem (i : ℕ) (c : DiscadeltaSegmentConfig) :
    effDelta (mkItem i c) = effMaxCfg c - normBase c := by
  show (if normExpandRatio c ≤ 0 then 0 else max 0 (normMax c - normBase c))
    = effMaxCfg c - normBase c
  unfold effMaxCfg
  split_ifs with h
  · ring
  · rw [max_eq_right (by linarith [normBase_le_normMax c])]

/-! ### Pass-count bounds -/

theorem compressPassCount_le (fuel : ℕ) (m : DMetrics) (hfuel : m.items.length < fuel) :
    compressPassCount fuel m ≤ m.items.length + 1 := by
  induction fuel generalizing m with
  | zero => omega
  | succ fuel ih =>
    simp only [compressPassCount]
    by_cases hc : (compressPassGo m.inputDistance m.accBase m.accSol m.items).value
        < (compressPassGo m.inputDistance m.accBase m.accSol m.items).limit
    · rw [if_pos hc]
      have hv := cpass_value m.inputDistance m.accBase m.accSol m.items
      have hl := cpass_limit m.inputDistance m.accBase m.accSol m.items
      have hih := ih ⟨m.inputDistance
          - (compressPassGo m.inputDistance m.accBase m.accSol m.items).dec,
        (compressPassGo m.inputDistance m.accBase m.accSol m.items).nItems,
        (compressPassGo m.inputDistance m.accBase m.accSol m.items).nBase,
        (compressPassGo m.inputDistance m.accBase m.accSol m.items).nSol, 0⟩ (by
          show (compressPassGo m.inputDistance m.accBase m.accSol m.items).nItems.length
            < fuel
          omega)
      have hih2 : compressPassCount fuel ⟨m.inputDistance
          - (compressPassGo m.inputDistance m.accBase m.accSol m.items).dec,
        (compressPassGo m.inputDistance m.accBase m.accSol m.items).nItems,
        (compressPassGo m.inputDistance m.accBase m.accSol m.items).nBase,
        (compressPassGo m.inputDistance m.accBase m.accSol m.items).nSol, 0⟩
          ≤ (compressPassGo m.inputDistance m.accBase m.accSol
              m.items).nItems.length + 1 := hih
      omega
    · rw [if_neg hc]
      omega

theorem expandPassCount_le (fuel : ℕ) (m : DMetrics) (hfuel : m.items.length < fuel) :
    expandPassCount fuel m ≤ m.items.length + 1 := by
  induction fuel generalizing m with
  | zero => omega
  | succ fuel ih =>
    simp only [expandPassCount]
    by_cases hS0 : max (m.inputDistance - m.accBase) 0 ≤ 0
    · rw [if_pos hS0]
      omega
    · rw [if_neg hS0]
      by_cases hc : (expandPassGo (max (m.inputDistance - m.accBase) 0)
            m.accER m.items).value
          < (expandPassGo (max (m.inputDistance - m.accBase) 0) m.accER m.items).limit
      · rw [if_pos hc]
        have hv := epass_value (max (m.inputDistance - m.accBase) 0) m.accER m.items
        have hl := epass_limit (max (m.inputDistance - m.accBase) 0) m.accER m.items
        have hih := ih ⟨max (m.inputDistance - m.accBase) 0
            - (expandPassGo (max (m.inputDistance - m.accBase) 0) m.accER m.items).dec
            + (expandPassGo (max (m.inputDistance - m.accBase) 0) m.accER m.items).nBase,
          (expandPassGo (max (m.inputDistance - m.accBase) 0) m.accER m.items).nItems,
          (expandPassGo (max (m.inputDistance - m.accBase) 0) m.accER m.items).nBase, 0,
          (expandPassGo (max (m.inputDistance - m.accBase) 0) m.accER m.items).nER⟩ (by
            show (expandPassGo (max (m.inputDistance - m.accBase) 0)
                m.accER m.items).nItems.length < fuel
            omega)
        have hih2 : expandPassCount fuel ⟨max (m.inputDistance - m.accBase) 0
            - (expandPassGo (max (m.inputDistance - m.accBase) 0) m.accER m.items).dec
            + (expandPassGo (max (m.inputDistance - m.accBase) 0) m.accER m.items).nBase,
          (expandPassGo (max (m.inputDistance - m.accBase) 0) m.accER m.items).nItems,
          (expandPassGo (max (m.inputDistance - m.accBase) 0) m.accER m.items).nBase, 0,
          (expandPassGo (max (m.inputDistance - m.accBase) 0) m.accER m.items).nER⟩
            ≤ (expandPassGo (max (m.inputDistance - m.accBase) 0)
                m.accER m.items).nItems.length + 1 := hih
        omega
      · rw [if_neg hc]
        omega

end Discadelta

namespace Discadelta

/-- Claim C1 (amended): when every config has `flex_compress ≤ 1` and the
target `T` lies between the effective bounds `Σ max(min_i, solidify_i)` and
`Σ (max_i if flex_expand_i > 0 else base_i)`, the flat distributor
(compression when `T < Σ base`, expansion otherwise) yields final distances
whose sum is exactly `T`. -/
theorem c1_sum (configs : List DiscadeltaSegmentConfig) (T : ℚ)
    (hr : ∀ c ∈ configs, c.compressRatio ≤ 1)
    (hlo : sumBy configs effMinCfg ≤ T)
    (hhi : T ≤ sumBy configs effMaxCfg) :
    distSum (SolveDiscadelta configs T) = T := by
  have hT0 : 0 ≤ T :=
    le_trans (sumBy_nonneg (fun c _ => effMinCfg_nonneg c)) hlo
  have hmax : max 0 T = T := max_eq_right hT0
  have hOK : ∀ it ∈ mkItems 0 configs, ItemOK it := by
    intro it hit
    rcases mem_mkItems configs 0 it hit with ⟨c, hc, j, hj⟩
    rw [hj]
    exact mkItem_ok j c (hr c hc)
  have hN : ((mkItems 0 configs).map (fun it => it.idx)).Nodup := mkItems_idx_nodup configs 0
  have hRange : ∀ it ∈ mkItems 0 configs, it.idx < (configs.map mkSeg).length := by
    intro it hit
    rcases mem_mkItems_idx configs 0 it hit with ⟨k, hk, he⟩
    rw [he, List.length_map]
    show 0 + k < configs.length
    omega
  have hbase : sumBy (mkItems 0 configs) (fun it => it.base) = sumBy configs normBase :=
    sumBy_mkItems configs _ normBase (fun i c => rfl) 0
  have hemin : sumBy (mkItems 0 configs) effMin = sumBy configs effMinCfg :=
    sumBy_mkItems configs effMin effMinCfg (fun i c => rfl) 0
  have hedelta : sumBy (mkItems 0 configs) effDelta
      = sumBy configs effMaxCfg - sumBy configs normBase := by
    rw [sumBy_mkItems configs effDelta (fun c => effMaxCfg c - normBase c)
      (fun i c => effDelta_mkItem i c) 0]
    exact sumBy_sub configs effMaxCfg normBase
  have hdsum : distSum (configs.map mkSeg) = sumBy configs normBase :=
    distSum_map_mkSeg configs
  have hsuminit : sumBy (mkItems 0 configs)
      (fun it => distAt (configs.map mkSeg) it.idx) = sumBy configs normBase := by
    apply sum_distAt_base configs 0 (configs.map mkSeg)
    intro k hk
    rw [Nat.zero_add]
    exact distAt_map_mkSeg configs k hk
  simp only [SolveDiscadelta]
  by_cases hcmp : max 0 T < sumBy (mkItems 0 configs) (fun it => it.base)
  · have hbool : (MakeDiscadeltaContext configs T).2.2 = true := decide_eq_true hcmp
    rw [if_pos hbool]
    have hlo2 : sumBy (MakeDiscadeltaContext configs T).2.1.items effMin
        ≤ (MakeDiscadeltaContext configs T).2.1.inputDistance := by
      show sumBy (mkItems 0 configs) effMin ≤ max 0 T
      rw [hemin, hmax]
      exact hlo
    rw [compress_sum_aux ((MakeDiscadeltaContext configs T).2.1.items.length + 1)
      (MakeDiscadeltaContext configs T).2.1 (MakeDiscadeltaContext configs T).1
      hOK rfl rfl hN hRange hlo2 (le_of_lt hcmp) (Nat.lt_succ_self _)]
    show distSum (configs.map mkSeg)
        - sumBy (mkItems 0 configs) (fun it => distAt (configs.map mkSeg) it.idx)
        + max 0 T = T
    rw [hdsum, hsuminit, hmax]
    ring
  · have hge : sumBy (mkItems 0 configs) (fun it => it.base) ≤ max 0 T := not_lt.mp hcmp
    have hbool : (MakeDiscadeltaContext configs T).2.2 = false := decide_eq_false hcmp
    have hnot : ¬ ((MakeDiscadeltaContext configs T).2.2 = true) := by
      rw [hbool]
      decide
    rw [if_neg hnot]
    have hfeas : max ((MakeDiscadeltaContext configs T).2.1.inputDistance
        - (MakeDiscadeltaContext configs T).2.1.accBase) 0
        ≤ sumBy (MakeDiscadeltaContext configs T).2.1.items effDelta := by
      show max (max 0 T - sumBy (mkItems 0 configs) (fun it => it.base)) 0
        ≤ sumBy (mkItems 0 configs) effDelta
      rw [hmax, hbase, hedelta]
      have hmono : sumBy configs normBase ≤ sumBy configs effMaxCfg :=
        sumBy_le_sumBy (fun c _ => effMaxCfg_ge_base c)
      exact max_le (by linarith) (by linarith)
    have hzero : max ((MakeDiscadeltaContext configs T).2.1.inputDistance
        - (MakeDiscadeltaContext configs T).2.1.accBase) 0 = 0 →
        ∀ it ∈ (MakeDiscadeltaContext configs T).2.1.items,
          distAt (MakeDiscadeltaContext configs T).1 it.idx = it.base := by
      intro hz it hit
      rcases mem_mkItems_idx configs 0 it hit with ⟨k, hk, he⟩
      rw [he]
      show distAt (configs.map mkSeg) (0 + k) = normBase (configs.getD k dfltCfg)
      rw [Nat.zero_add]
      exact distAt_map_mkSeg configs k hk
    rw [expand_sum_aux ((MakeDiscadeltaContext configs T).2.1.items.length + 1)
      (MakeDiscadeltaContext configs T).2.1 (MakeDiscadeltaContext configs T).1
      hOK rfl hN hRange hfeas hzero (Nat.lt_succ_self _)]
    show distSum (configs.map mkSeg)
        - sumBy (mkItems 0 configs) (fun it => distAt (configs.map mkSeg) it.idx)
        + sumBy (mkItems 0 configs) (fun it => it.base)
        + max (max 0 T - sumBy (mkItems 0 configs) (fun it => it.base)) 0 = T
    rw [hbase, hmax] at hge
    rw [hdsum, hsuminit, hbase, hmax,
      max_eq_left (by linarith : (0 : ℚ) ≤ T - sumBy configs normBase)]
    ring

/-- Witness for `c1_sum` at Scenario C with target `800`. -/
theorem c1_witness :
    (∀ c ∈ scenarioC, c.compressRatio ≤ 1) ∧
    sumBy scenarioC effMinCfg ≤ 800 ∧ (800 : ℚ) ≤ sumBy scenarioC effMaxCfg ∧
    distSum (SolveDiscadelta scenarioC 800) = 800 := by
  have h1 : ∀ c ∈ scenarioC, c.compressRatio ≤ 1 := by
    intro c hc
    simp only [scenarioC, List.mem_cons, List.not_mem_nil, or_false] at hc
    rcases hc with rfl | rfl | rfl | rfl <;> norm_num
  have h2 : sumBy scenarioC effMinCfg ≤ 800 := by
    norm_num [scenarioC, sumBy, effMinCfg, normMin, normMax, normBase, stdClamp,
      compressSolidify, compressCapacity, normCompressRatio, max_def, min_def]
  have h3 : (800 : ℚ) ≤ sumBy scenarioC effMaxCfg := by
    norm_num [scenarioC, sumBy, effMaxCfg, normMin, normMax, normBase, stdClamp,
      normExpandRatio, max_def, min_def]
  exact ⟨h1, h2, h3, c1_sum scenarioC 800 h1 h2 h3⟩

end Discadelta

namespace Discadelta

/-- Claim C2 (amended): for targets `T ≥ 0` and configs whose
`flex_compress` is at most `1`, every position's final distance stays
between the normalized clamps produced at ingestion. -/
theorem c2_bounds (configs : List DiscadeltaSegmentConfig) (T : ℚ)
    (hr : ∀ c ∈ configs, c.compressRatio ≤ 1) (hT : 0 ≤ T) :
    ∀ j, normMin (configs.getD j dfltCfg) ≤ distAt (SolveDiscadelta configs T) j ∧
      distAt (SolveDiscadelta configs T) j ≤ normMax (configs.getD j dfltCfg) := by
  have hOK : ∀ it ∈ mkItems 0 configs, ItemOK it := by
    intro it hit
    rcases mem_mkItems configs 0 it hit with ⟨c, hc, j, hj⟩
    rw [hj]
    exact mkItem_ok j c (hr c hc)
  have hsegs : ∀ j, normMin (configs.getD j dfltCfg) ≤ distAt (configs.map mkSeg) j ∧
      distAt (configs.map mkSeg) j ≤ normMax (configs.getD j dfltCfg) := by
    intro j
    by_cases hj : j < configs.length
    · rw [distAt_map_mkSeg configs j hj]
      exact ⟨normMin_le_normBase _, normBase_le_normMax _⟩
    · have h1 : distAt (configs.map mkSeg) j = 0 := by
        unfold distAt
        rw [List.getD_eq_default]
        · rfl
        · rw [List.length_map]
          omega
      have h2 : configs.getD j dfltCfg = dfltCfg := by
        rw [List.getD_eq_default]
        omega
      rw [h1, h2]
      constructor
      · norm_num [normMin, dfltCfg]
      · norm_num [normMax, normMin, dfltCfg]
  simp only [SolveDiscadelta]
  by_cases hcmp : max 0 T < sumBy (mkItems 0 configs) (fun it => it.base)
  · have hbool : (MakeDiscadeltaContext configs T).2.2 = true := decide_eq_true hcmp
    rw [if_pos hbool]
    have hitemC : ∀ it ∈ mkItems 0 configs,
        normMin (configs.getD it.idx dfltCfg) ≤ it.minD ∧
        it.base ≤ normMax (configs.getD it.idx dfltCfg) := by
      intro it hit
      rcases mem_mkItems_idx configs 0 it hit with ⟨k, hk, he⟩
      rw [he]
      show normMin (configs.getD (0 + k) dfltCfg) ≤ normMin (configs.getD k dfltCfg) ∧
        normBase (configs.getD k dfltCfg) ≤ normMax (configs.getD (0 + k) dfltCfg)
      rw [Nat.zero_add]
      exact ⟨le_refl _, normBase_le_normMax _⟩
    exact compress_bounds_aux ((MakeDiscadeltaContext configs T).2.1.items.length + 1)
      (MakeDiscadeltaContext configs T).2.1 (MakeDiscadeltaContext configs T).1
      (fun j => normMin (configs.getD j dfltCfg))
      (fun j => normMax (configs.getD j dfltCfg))
      hOK rfl rfl (le_of_lt hcmp) hitemC hsegs
  · have hbool : (MakeDiscadeltaContext configs T).2.2 = false := decide_eq_false hcmp
    have hnot : ¬ ((MakeDiscadeltaContext configs T).2.2 = true) := by
      rw [hbool]
      decide
    rw [if_neg hnot]
    have hitemE : ∀ it ∈ mkItems 0 configs,
        normMin (configs.getD it.idx dfltCfg) ≤ it.base ∧
        it.maxD ≤ normMax (configs.getD it.idx dfltCfg) := by
      intro it hit
      rcases mem_mkItems_idx configs 0 it hit with ⟨k, hk, he⟩
      rw [he]
      show normMin (configs.getD (0 + k) dfltCfg) ≤ normBase (configs.getD k dfltCfg) ∧
        normMax (configs.getD k dfltCfg) ≤ normMax (configs.getD (0 + k) dfltCfg)
      rw [Nat.zero_add]
      exact ⟨normMin_le_normBase _, le_refl _⟩
    exact expand_bounds_aux ((MakeDiscadeltaContext configs T).2.1.items.length + 1)
      (MakeDiscadeltaContext configs T).2.1 (MakeDiscadeltaContext configs T).1
      (fun j => normMin (configs.getD j dfltCfg))
      (fun j => normMax (configs.getD j dfltCfg))
      hOK rfl hitemE hsegs

/-- Witness for `c2_bounds` at Scenario C with target `800`, child 1. -/
theorem c2_witness :
    (∀ c ∈ scenarioC, c.compressRatio ≤ 1) ∧ (0 : ℚ) ≤ 800 ∧
    (normMin (scenarioC.getD 0 dfltCfg) ≤ distAt (SolveDiscadelta scenarioC 800) 0 ∧
      distAt (SolveDiscadelta scenarioC 800) 0 ≤ normMax (scenarioC.getD 0 dfltCfg)) := by
  have h1 : ∀ c ∈ scenarioC, c.compressRatio ≤ 1 := by
    intro c hc
    simp only [scenarioC, List.mem_cons, List.not_mem_nil, or_false] at hc
    rcases hc with rfl | rfl | rfl | rfl <;> norm_num
  exact ⟨h1, by norm_num, c2_bounds scenarioC 800 h1 (by norm_num) 0⟩

/-- Claim C6 (amended): with every `flex_compress ≤ 1` and `T ≤ Σ base`,
no position's final distance exceeds its normalized base. -/
theorem c6_no_growth (configs : List DiscadeltaSegmentConfig) (T : ℚ)
    (hr : ∀ c ∈ configs, c.compressRatio ≤ 1)
    (hT : T ≤ sumBy configs normBase) :
    ∀ j, distAt (SolveDiscadelta configs T) j ≤ normBase (configs.getD j dfltCfg) := by
  have hOK : ∀ it ∈ mkItems 0 configs, ItemOK it := by
    intro it hit
    rcases mem_mkItems configs 0 it hit with ⟨c, hc, j, hj⟩
    rw [hj]
    exact mkItem_ok j c (hr c hc)
  have hbase : sumBy (mkItems 0 configs) (fun it => it.base) = sumBy configs normBase :=
    sumBy_mkItems configs _ normBase (fun i c => rfl) 0
  have hB0 : 0 ≤ sumBy configs normBase := sumBy_nonneg (fun c _ => normBase_nonneg c)
  have hsegs : ∀ j, (0 : ℚ) ≤ distAt (configs.map mkSeg) j ∧
      distAt (configs.map mkSeg) j ≤ normBase (configs.getD j dfltCfg) := by
    intro j
    by_cases hj : j < configs.length
    · rw [distAt_map_mkSeg configs j hj]
      exact ⟨normBase_nonneg _, le_refl _⟩
    · have h1 : distAt (configs.map mkSeg) j = 0 := by
        unfold distAt
        rw [List.getD_eq_default]
        · rfl
        · rw [List.length_map]
          omega
      have h2 : configs.getD j dfltCfg = dfltCfg := by
        rw [List.getD_eq_default]
        omega
      rw [h1, h2]
      refine ⟨le_refl 0, ?_⟩
      norm_num [normBase, stdClamp, normMin, normMax, dfltCfg]
  simp only [SolveDiscadelta]
  by_cases hcmp : max 0 T < sumBy (mkItems 0 configs) (fun it => it.base)
  · have hbool : (MakeDiscadeltaContext configs T).2.2 = true := decide_eq_true hcmp
    rw [if_pos hbool]
    have hitem : ∀ it ∈ mkItems 0 configs, (0 : ℚ) ≤ it.minD ∧
        it.base ≤ normBase (configs.getD it.idx dfltCfg) := by
      intro it hit
      refine ⟨(hOK it hit).2.2.2.1, ?_⟩
      rcases mem_mkItems_idx configs 0 it hit with ⟨k, hk, he⟩
      rw [he]
      show normBase (configs.getD k dfltCfg) ≤ normBase (configs.getD (0 + k) dfltCfg)
      rw [Nat.zero_add]
    have hres := compress_bounds_aux
      ((MakeDiscadeltaContext configs T).2.1.items.length + 1)
      (MakeDiscadeltaContext configs T).2.1 (MakeDiscadeltaContext configs T).1
      (fun j => (0 : ℚ)) (fun j => normBase (configs.getD j dfltCfg))
      hOK rfl rfl (le_of_lt hcmp) hitem hsegs
    exact fun j => (hres j).2
  · have hbool : (MakeDiscadeltaContext configs T).2.2 = false := decide_eq_false hcmp
    have hnot : ¬ ((MakeDiscadeltaContext configs T).2.2 = true) := by
      rw [hbool]
      decide
    rw [if_neg hnot]
    have hS0 : max ((MakeDiscadeltaContext configs T).2.1.inputDistance
        - (MakeDiscadeltaContext configs T).2.1.accBase) 0 ≤ 0 := by
      show max (max 0 T - sumBy (mkItems 0 configs) (fun it => it.base)) 0 ≤ 0
      rw [hbase]
      have hup : max 0 T ≤ sumBy configs normBase := max_le hB0 hT
      exact max_le (by linarith) (le_refl 0)
    simp only [RedistributeDiscadeltaExpandDistance]
    rw [if_pos hS0]
    exact fun j => (hsegs j).2

/-- Witness for `c6_no_growth` at Scenario C with target `800`, child 1. -/
theorem c6_witness :
    (∀ c ∈ scenarioC, c.compressRatio ≤ 1) ∧
    (800 : ℚ) ≤ sumBy scenarioC normBase ∧
    distAt (SolveDiscadelta scenarioC 800) 0 ≤ normBase (scenarioC.getD 0 dfltCfg) := by
  have h1 : ∀ c ∈ scenarioC, c.compressRatio ≤ 1 := by
    intro c hc
    simp only [scenarioC, List.mem_cons, List.not_mem_nil, or_false] at hc
    rcases hc with rfl | rfl | rfl | rfl <;> norm_num
  have h2 : (800 : ℚ) ≤ sumBy scenarioC normBase := by
    norm_num [scenarioC, sumBy, normBase, stdClamp, normMin, normMax, max_def, min_def]
  exact ⟨h1, h2, c6_no_growth scenarioC 800 h1 h2 0⟩

end Discadelta

namespace Discadelta

/-- Claim C5 (amended): redistribution always terminates; a pass recurses
only when it fixed at least one child (safeguard `value < limit`), each
recursive pass operates on a strictly smaller flexible set, and the total
number of pass invocations is at most the number of children plus one. -/
theorem c5_pass_bound (configs : List DiscadeltaSegmentConfig) (T : ℚ) :
    SolvePassCount configs T ≤ configs.length + 1 ∧
    (∀ D B S items,
      (compressPassGo D B S items).value < (compressPassGo D B S items).limit →
      (compressPassGo D B S items).nItems.length < items.length) ∧
    (∀ S R items,
      (expandPassGo S R items).value < (expandPassGo S R items).limit →
      (expandPassGo S R items).nItems.length < items.length) := by
  refine ⟨?_, ?_, ?_⟩
  · simp only [SolvePassCount]
    have hlen : (MakeDiscadeltaContext configs T).2.1.items.length = configs.length :=
      mkItems_length 0 configs
    by_cases hb : (MakeDiscadeltaContext configs T).2.2 = true
    · rw [if_pos hb]
      have h := compressPassCount_le
        ((MakeDiscadeltaContext configs T).2.1.items.length + 1)
        (MakeDiscadeltaContext configs T).2.1 (Nat.lt_succ_self _)
      omega
    · rw [if_neg hb]
      have h := expandPassCount_le
        ((MakeDiscadeltaContext configs T).2.1.items.length + 1)
        (MakeDiscadeltaContext configs T).2.1 (Nat.lt_succ_self _)
      omega
  · intro D B S items hlt
    have hv := cpass_value D B S items
    have hl := cpass_limit D B S items
    omega
  · intro S R items hlt
    have hv := epass_value S R items
    have hl := epass_limit S R items
    omega

/-- Witness for `c5_pass_bound`: the min-pinned single child stays within
the bound of two invocations, and its first compression pass strictly
shrinks the flexible set after fixing the child at its min. -/
theorem c5_witness :
    SolvePassCount cxMinPin 100 ≤ cxMinPin.length + 1 ∧
    (compressPassGo 100 200 0 (mkItems 0 cxMinPin)).nItems.length
      < (mkItems 0 cxMinPin).length := by
  have h := c5_pass_bound cxMinPin 100
  refine ⟨h.1, h.2.1 100 200 0 (mkItems 0 cxMinPin) ?_⟩
  norm_num [cxMinPin, mkItems, mkItem, normMin, normMax, normBase, stdClamp,
    normCompressRatio, normExpandRatio, compressCapacity, compressSolidify,
    compressPassGo, cProposed, cFinal, consFixedC, consFlexC, max_def, min_def]

end Discadelta
